import Mathlib

/-!
Verification of the banquet binary-extension-field and polynomial engine.

The development shallowly embeds `src/field.cpp` and
`src/banquet_instances.cpp` over `Nat` bit patterns: a `GF2E` value is the
`uint64_t` coefficient bitmask of a polynomial over GF(2), carry-less
multiplication (`_mm_clmulepi64_si128`) is `cmul`, and every reduction
routine is transcribed instruction by instruction.  Polynomial-over-GF(2)
semantics is provided by the bridge `toPoly : Nat → Polynomial (ZMod 2)`
and by the executable schoolbook remainder `polyMod`.
-/

namespace Banquet

/-! ### Carry-less multiplication

`cmulF` is a fuel-indexed (hence structurally recursive and kernel
evaluable) carry-less product of the bit patterns `a` and `b`; `cmul a b`
supplies enough fuel.  It models the 64×64→128 bit `clmul` primitive of
`field.cpp` except that it is defined on all of `Nat`. -/

def cmulF : Nat → Nat → Nat → Nat
  | 0, _, _ => 0
  | fuel+1, a, b =>
    if a = 0 then 0
    else (if a % 2 = 1 then b else 0) ^^^ 2 * cmulF fuel (a / 2) b

def cmul (a b : Nat) : Nat := cmulF a a b

theorem cmulF_zero_left : ∀ (f b : Nat), cmulF f 0 b = 0
  | 0, _ => rfl
  | _+1, _ => by simp [cmulF]

theorem cmulF_congr (f g a b : Nat) (hf : a ≤ f) (hg : a ≤ g) :
    cmulF f a b = cmulF g a b := by
  induction f generalizing g a with
  | zero =>
    have ha : a = 0 := by omega
    subst ha
    rw [cmulF_zero_left, cmulF_zero_left]
  | succ f ih =>
    rcases Nat.eq_zero_or_pos a with rfl | ha
    · rw [cmulF_zero_left, cmulF_zero_left]
    cases g with
    | zero => omega
    | succ g' =>
      show cmulF (f+1) a b = cmulF (g'+1) a b
      simp only [cmulF, if_neg (by omega : ¬ a = 0)]
      rw [ih g' (a / 2) (by omega) (by omega)]

/-- The defining recurrence of `cmul` (bit-serial carry-less product). -/
theorem cmul_rec (a b : Nat) :
    cmul a b = if a = 0 then 0
      else (if a % 2 = 1 then b else 0) ^^^ 2 * cmul (a / 2) b := by
  rcases a with _ | n
  · rfl
  · rw [if_neg (Nat.succ_ne_zero n)]
    show cmulF (n+1) (n+1) b = _
    rw [show cmulF (n+1) (n+1) b
        = (if (n+1) % 2 = 1 then b else 0) ^^^ 2 * cmulF n ((n+1)/2) b from by
      simp [cmulF]]
    rw [cmulF_congr n ((n+1)/2) ((n+1)/2) b (by omega) (le_refl _)]
    rfl

theorem zero_cmul (b : Nat) : cmul 0 b = 0 := rfl

theorem cmul_zero (a : Nat) : cmul a 0 = 0 := by
  induction a using Nat.strong_induction_on with
  | _ a ih =>
    rw [cmul_rec]
    rcases Nat.eq_zero_or_pos a with rfl | ha
    · simp
    · rw [if_neg (by omega), ih (a / 2) (by omega)]
      simp

theorem one_cmul (b : Nat) : cmul 1 b = b := by
  rw [cmul_rec]
  simp [zero_cmul]

/-! ### The bridge to polynomials over GF(2) -/

noncomputable def toPoly (n : Nat) : Polynomial (ZMod 2) :=
  if n = 0 then 0
  else Polynomial.C ((n % 2 : Nat) : ZMod 2) + Polynomial.X * toPoly (n / 2)
termination_by n
decreasing_by exact Nat.div_lt_self (Nat.pos_of_ne_zero (by assumption)) one_lt_two

theorem toPoly_zero : toPoly 0 = 0 := by
  rw [toPoly]
  simp

theorem toPoly_ne_zero (n : Nat) (h : n ≠ 0) :
    toPoly n = Polynomial.C ((n % 2 : Nat) : ZMod 2) + Polynomial.X * toPoly (n / 2) := by
  rw [toPoly, if_neg h]

theorem toPoly_one : toPoly 1 = 1 := by
  rw [toPoly_ne_zero 1 one_ne_zero]
  simp [toPoly_zero]

theorem toPoly_eq_zero_iff (n : Nat) : toPoly n = 0 ↔ n = 0 := by
  induction n using Nat.strong_induction_on with
  | _ n ih =>
    constructor
    · intro h
      by_contra hn
      rw [toPoly_ne_zero n hn] at h
      have h0 : ((n % 2 : Nat) : ZMod 2) = 0 := by
        have := congrArg (fun p => Polynomial.coeff p 0) h
        simpa using this
      have h1 : Polynomial.X * toPoly (n / 2) = 0 := by
        rw [h0, Polynomial.C_0, zero_add] at h
        exact h
      have h2 : toPoly (n / 2) = 0 := by
        rcases mul_eq_zero.mp h1 with hX | hq
        · exact absurd hX Polynomial.X_ne_zero
        · exact hq
      have h3 : n / 2 = 0 := (ih (n / 2) (Nat.div_lt_self (Nat.pos_of_ne_zero hn) one_lt_two)).mp h2
      have h4 : n % 2 = 0 := by
        rcases Nat.mod_two_eq_zero_or_one n with h | h
        · exact h
        · rw [h] at h0
          norm_num at h0
      omega
    · rintro rfl
      exact toPoly_zero

theorem mod_two_xor (a b : Nat) : (a ^^^ b) % 2 = (a % 2 + b % 2) % 2 := by
  have h := @Nat.xor_mod_two_eq_one a b
  have ha := Nat.mod_two_eq_zero_or_one a
  have hb := Nat.mod_two_eq_zero_or_one b
  have hx := Nat.mod_two_eq_zero_or_one (a ^^^ b)
  rcases ha with ha | ha <;> rcases hb with hb | hb <;>
    simp [ha, hb] at h ⊢ <;> omega

theorem toPoly_xor (a : Nat) : ∀ b, toPoly (a ^^^ b) = toPoly a + toPoly b := by
  induction a using Nat.strong_induction_on with
  | _ a ih =>
    intro b
    rcases Nat.eq_zero_or_pos a with rfl | ha
    · simp [toPoly_zero]
    rcases Nat.eq_zero_or_pos b with rfl | hb
    · simp [toPoly_zero]
    by_cases hab : a ^^^ b = 0
    · have hba : a = b := by
        have h2 := congrArg (fun x => x ^^^ b) hab
        simpa [Nat.xor_assoc] using h2
      subst hba
      rw [hab, toPoly_zero]
      exact (CharTwo.add_self_eq_zero _).symm
    rw [toPoly_ne_zero _ hab, toPoly_ne_zero a (by omega), toPoly_ne_zero b (by omega)]
    rw [Nat.xor_div_two, ih (a / 2) (by omega) (b / 2)]
    have hcast : (((a ^^^ b) % 2 : Nat) : ZMod 2)
        = ((a % 2 : Nat) : ZMod 2) + ((b % 2 : Nat) : ZMod 2) := by
      have hx := mod_two_xor a b
      rcases Nat.mod_two_eq_zero_or_one a with h1 | h1 <;>
        rcases Nat.mod_two_eq_zero_or_one b with h2 | h2 <;>
          rw [h1, h2] at hx ⊢ <;> rw [hx] <;> decide
    rw [hcast, map_add]
    ring

theorem toPoly_two_mul (a : Nat) : toPoly (2 * a) = Polynomial.X * toPoly a := by
  rcases Nat.eq_zero_or_pos a with rfl | ha
  · simp [toPoly_zero]
  rw [toPoly_ne_zero (2 * a) (by omega)]
  have h1 : (2 * a) % 2 = 0 := by omega
  have h2 : (2 * a) / 2 = a := by omega
  rw [h1, h2]
  simp

theorem toPoly_cmul (a : Nat) : ∀ b, toPoly (cmul a b) = toPoly a * toPoly b := by
  induction a using Nat.strong_induction_on with
  | _ a ih =>
    intro b
    rcases Nat.eq_zero_or_pos a with rfl | ha
    · simp [zero_cmul, toPoly_zero]
    rw [cmul_rec, if_neg (by omega)]
    rw [toPoly_xor, toPoly_two_mul, ih (a / 2) (by omega) b]
    rw [toPoly_ne_zero a (by omega)]
    have : toPoly (if a % 2 = 1 then b else 0) = Polynomial.C ((a % 2 : Nat) : ZMod 2) * toPoly b := by
      rcases Nat.mod_two_eq_zero_or_one a with h | h <;> rw [h] <;> simp [toPoly_zero]
    rw [this]
    ring

theorem toPoly_injective : Function.Injective toPoly := by
  intro a
  induction a using Nat.strong_induction_on with
  | _ a ih =>
    intro b h
    rcases Nat.eq_zero_or_pos a with rfl | ha
    · rw [toPoly_zero] at h
      exact ((toPoly_eq_zero_iff b).mp h.symm).symm
    rcases Nat.eq_zero_or_pos b with rfl | hb
    · rw [toPoly_zero] at h
      exact (toPoly_eq_zero_iff a).mp h
    rw [toPoly_ne_zero a (by omega), toPoly_ne_zero b (by omega)] at h
    have hc : ((a % 2 : Nat) : ZMod 2) = ((b % 2 : Nat) : ZMod 2) := by
      have := congrArg (fun p => Polynomial.coeff p 0) h
      simpa using this
    have hmod : a % 2 = b % 2 := by
      rcases Nat.mod_two_eq_zero_or_one a with h1 | h1 <;>
        rcases Nat.mod_two_eq_zero_or_one b with h2 | h2 <;>
          rw [h1, h2] at hc <;> first | omega | norm_num at hc
    have hX : Polynomial.X * toPoly (a / 2) = Polynomial.X * toPoly (b / 2) := by
      rw [hc] at h
      exact add_left_cancel h
    have hdiv : a / 2 = b / 2 :=
      ih (a / 2) (by omega) (mul_left_cancel₀ Polynomial.X_ne_zero hX)
    omega

/-! ### Ring identities for `cmul`, transported through `toPoly` -/

theorem cmul_comm (a b : Nat) : cmul a b = cmul b a := by
  apply toPoly_injective
  rw [toPoly_cmul, toPoly_cmul]
  ring

theorem cmul_assoc (a b c : Nat) : cmul (cmul a b) c = cmul a (cmul b c) := by
  apply toPoly_injective
  rw [toPoly_cmul, toPoly_cmul, toPoly_cmul, toPoly_cmul]
  ring

theorem cmul_xor_right (a b c : Nat) : cmul a (b ^^^ c) = cmul a b ^^^ cmul a c := by
  apply toPoly_injective
  rw [toPoly_cmul, toPoly_xor, toPoly_xor, toPoly_cmul, toPoly_cmul]
  ring

theorem cmul_xor_left (a b c : Nat) : cmul (a ^^^ b) c = cmul a c ^^^ cmul b c := by
  apply toPoly_injective
  rw [toPoly_cmul, toPoly_xor, toPoly_xor, toPoly_cmul, toPoly_cmul]
  ring

theorem cmul_one (a : Nat) : cmul a 1 = a := by
  rw [cmul_comm]
  exact one_cmul a

theorem toPoly_mul_two_pow (a : Nat) : ∀ k, toPoly (a * 2 ^ k) = toPoly a * Polynomial.X ^ k := by
  intro k
  induction k with
  | zero => simp
  | succ k ihk =>
    have : a * 2 ^ (k+1) = 2 * (a * 2 ^ k) := by ring
    rw [this, toPoly_two_mul, ihk]
    ring

theorem toPoly_two_pow (k : Nat) : toPoly (2 ^ k) = Polynomial.X ^ k := by
  have := toPoly_mul_two_pow 1 k
  simpa [toPoly_one] using this

theorem cmul_two_pow (a k : Nat) : cmul a (2 ^ k) = a * 2 ^ k := by
  apply toPoly_injective
  rw [toPoly_cmul, toPoly_two_pow, toPoly_mul_two_pow]

theorem two_pow_cmul (k m : Nat) : cmul (2 ^ k) m = m <<< k := by
  rw [cmul_comm, cmul_two_pow, Nat.shiftLeft_eq]

/-! ### Bit-range bounds for xor and `cmul` -/

theorem xor_left_comm (a b c : Nat) : a ^^^ (b ^^^ c) = b ^^^ (a ^^^ c) := by
  rw [← Nat.xor_assoc, Nat.xor_comm a b, Nat.xor_assoc]

theorem xor_cancel_left (a b : Nat) : a ^^^ (a ^^^ b) = b := by
  rw [← Nat.xor_assoc, Nat.xor_self, Nat.zero_xor]

theorem xor_rearrange (A B r s : Nat) (h : A ^^^ r = B ^^^ s) : A ^^^ B = r ^^^ s := by
  have h2 : (A ^^^ r) ^^^ (B ^^^ s) = 0 := by rw [h, Nat.xor_self]
  have h3 : (A ^^^ B) ^^^ (r ^^^ s) = 0 := by
    rw [← h2]
    simp [Nat.xor_assoc, xor_left_comm]
  exact Nat.xor_eq_zero.mp h3

theorem testBit_true_of_range (L z : Nat) (h1 : 2 ^ L ≤ z) (h2 : z < 2 ^ (L+1)) :
    z.testBit L = true := by
  have hdiv : z / 2 ^ L = 1 := by
    have ha : 1 ≤ z / 2 ^ L := (Nat.le_div_iff_mul_le (Nat.two_pow_pos L)).mpr (by omega)
    have hb : z / 2 ^ L < 2 := (Nat.div_lt_iff_lt_mul (Nat.two_pow_pos L)).mpr
      (by have hp : (2:Nat) ^ (L+1) = 2 * 2 ^ L := by rw [pow_succ]; ring
          omega)
    omega
  rw [Nat.testBit_to_div_mod, hdiv]
  rfl

theorem lt_two_pow_of_testBit_false (L z : Nat) (h2 : z < 2 ^ (L+1))
    (h : z.testBit L = false) : z < 2 ^ L := by
  by_contra hc
  rw [testBit_true_of_range L z (by omega) h2] at h
  exact Bool.noConfusion h

theorem xor_range (L z y : Nat) (h1 : 2 ^ L ≤ z) (h2 : z < 2 ^ (L+1)) (hy : y < 2 ^ L) :
    2 ^ L ≤ z ^^^ y ∧ z ^^^ y < 2 ^ (L+1) := by
  have hb : (z ^^^ y).testBit L = true := by
    rw [Nat.testBit_xor, testBit_true_of_range L z h1 h2, Nat.testBit_lt_two_pow hy]
    rfl
  constructor
  · exact Nat.testBit_implies_ge hb
  · exact Nat.xor_lt_two_pow h2 (lt_trans hy (by exact Nat.pow_lt_pow_succ one_lt_two))

theorem cmul_range (m : Nat) : ∀ n a b : Nat, 2 ^ m ≤ a → a < 2 ^ (m+1) →
    2 ^ n ≤ b → b < 2 ^ (n+1) →
    2 ^ (m+n) ≤ cmul a b ∧ cmul a b < 2 ^ (m+n+1) := by
  induction m with
  | zero =>
    intro n a b ha1 ha2 hb1 hb2
    have : a = 1 := by norm_num at ha1 ha2; omega
    subst this
    rw [one_cmul]
    simpa using ⟨hb1, hb2⟩
  | succ m ih =>
    intro n a b ha1 ha2 hb1 hb2
    have hpow : 2 ^ (m+2) = 2 * 2 ^ (m+1) := by ring
    have hpow1 : 2 ^ (m+1) = 2 * 2 ^ m := by ring
    have ha0 : a ≠ 0 := by have := Nat.two_pow_pos (m+1); omega
    rw [cmul_rec, if_neg ha0]
    have hdiv1 : 2 ^ m ≤ a / 2 := by omega
    have hdiv2 : a / 2 < 2 ^ (m+1) := by omega
    obtain ⟨hc1, hc2⟩ := ih n (a / 2) b hdiv1 hdiv2 hb1 hb2
    have hz1 : 2 ^ (m+n+1) ≤ 2 * cmul (a / 2) b := by
      have : 2 ^ (m+n+1) = 2 * 2 ^ (m+n) := by ring
      omega
    have hz2 : 2 * cmul (a / 2) b < 2 ^ (m+n+2) := by
      have : 2 ^ (m+n+2) = 2 * 2 ^ (m+n+1) := by ring
      omega
    have ht : (if a % 2 = 1 then b else 0) < 2 ^ (m+n+1) := by
      have hble : 2 ^ (n+1) ≤ 2 ^ (m+n+1) := Nat.pow_le_pow_right (by norm_num) (by omega)
      split <;> omega
    have hx := xor_range (m+n+1) (2 * cmul (a / 2) b) (if a % 2 = 1 then b else 0) hz1 hz2 ht
    rw [Nat.xor_comm] at hx
    constructor
    · have : m + 1 + n = m + n + 1 := by omega
      rw [this]
      exact hx.1
    · have : m + 1 + n + 1 = m + n + 1 + 1 := by omega
      rw [this]
      exact hx.2

theorem cmul_lt (m n a b : Nat) (hm : 0 < m) (hn : 0 < n) (ha : a < 2 ^ m) (hb : b < 2 ^ n) :
    cmul a b < 2 ^ (m + n - 1) := by
  rcases Nat.eq_zero_or_pos a with rfl | ha0
  · rw [zero_cmul]
    exact Nat.two_pow_pos _
  rcases Nat.eq_zero_or_pos b with rfl | hb0
  · rw [cmul_zero]
    exact Nat.two_pow_pos _
  have hla : Nat.log2 a < m := (Nat.log2_lt (by omega)).mpr ha
  have hlb : Nat.log2 b < n := (Nat.log2_lt (by omega)).mpr hb
  have h := cmul_range (Nat.log2 a) (Nat.log2 b) a b
    (Nat.log2_self_le (by omega)) Nat.lt_log2_self
    (Nat.log2_self_le (by omega)) Nat.lt_log2_self
  calc cmul a b < 2 ^ (Nat.log2 a + Nat.log2 b + 1) := h.2
    _ ≤ 2 ^ (m + n - 1) := Nat.pow_le_pow_right (by norm_num) (by omega)

theorem cmul_ge (q m : Nat) (hq : q ≠ 0) (hm0 : m ≠ 0) :
    2 ^ Nat.log2 m ≤ cmul q m := by
  have h := cmul_range (Nat.log2 q) (Nat.log2 m) q m
    (Nat.log2_self_le hq) Nat.lt_log2_self (Nat.log2_self_le hm0) Nat.lt_log2_self
  calc 2 ^ Nat.log2 m ≤ 2 ^ (Nat.log2 q + Nat.log2 m) :=
        Nat.pow_le_pow_right (by norm_num) (by omega)
    _ ≤ cmul q m := h.1

/-! ### Schoolbook polynomial remainder over GF(2)

`polyMod a m` is the remainder of carry-less (GF(2)-polynomial) division
of the bit pattern `a` by the bit pattern `m`: while the degree of `a` is
at least the degree of `m`, xor a copy of `m` shifted up to the leading
bit of `a`.  This is the reference meaning of "reduced modulo the
irreducible polynomial" in the specification. -/

def polyModF : Nat → Nat → Nat → Nat
  | 0, a, _ => a
  | fuel+1, a, m =>
    if m ≤ 1 ∨ a < 2 ^ Nat.log2 m then a
    else polyModF fuel (a ^^^ (m <<< (Nat.log2 a - Nat.log2 m))) m

def polyMod (a m : Nat) : Nat := polyModF a a m

theorem polyStep_lt (a m : Nat) (hm : 2 ≤ m) (ha : 2 ^ Nat.log2 m ≤ a) :
    a ^^^ (m <<< (Nat.log2 a - Nat.log2 m)) < a := by
  have ha0 : a ≠ 0 := by have := Nat.two_pow_pos (Nat.log2 m); omega
  have hm0 : m ≠ 0 := by omega
  have hLm : Nat.log2 m ≤ Nat.log2 a := (Nat.le_log2 ha0).mpr ha
  set L := Nat.log2 a with hL
  set s := L - Nat.log2 m with hs
  have hz1 : 2 ^ L ≤ m <<< s := by
    rw [Nat.shiftLeft_eq]
    calc 2 ^ L = 2 ^ Nat.log2 m * 2 ^ s := by rw [← pow_add]; congr 1; omega
      _ ≤ m * 2 ^ s := Nat.mul_le_mul_right _ (Nat.log2_self_le hm0)
  have hz2 : m <<< s < 2 ^ (L+1) := by
    rw [Nat.shiftLeft_eq]
    calc m * 2 ^ s < 2 ^ (Nat.log2 m + 1) * 2 ^ s :=
          (Nat.mul_lt_mul_right (Nat.two_pow_pos s)).mpr Nat.lt_log2_self
      _ = 2 ^ (L+1) := by rw [← pow_add]; congr 1; omega
  have hbit : (a ^^^ (m <<< s)).testBit L = false := by
    rw [Nat.testBit_xor, testBit_true_of_range L a (Nat.log2_self_le ha0) Nat.lt_log2_self,
      testBit_true_of_range L (m <<< s) hz1 hz2]
    rfl
  have hlt : a ^^^ (m <<< s) < 2 ^ (L+1) :=
    Nat.xor_lt_two_pow Nat.lt_log2_self hz2
  calc a ^^^ (m <<< s) < 2 ^ L := lt_two_pow_of_testBit_false L _ hlt hbit
    _ ≤ a := Nat.log2_self_le ha0

theorem polyModF_zero_left (f m : Nat) : polyModF f 0 m = 0 := by
  cases f with
  | zero => rfl
  | succ f =>
    show (if m ≤ 1 ∨ 0 < 2 ^ Nat.log2 m then 0 else _) = 0
    rw [if_pos (Or.inr (Nat.two_pow_pos _))]

theorem polyModF_congr (f g a m : Nat) (hf : a ≤ f) (hg : a ≤ g) :
    polyModF f a m = polyModF g a m := by
  induction f generalizing g a with
  | zero =>
    have ha : a = 0 := by omega
    subst ha
    rw [polyModF_zero_left, polyModF_zero_left]
  | succ f ih =>
    by_cases hcond : m ≤ 1 ∨ a < 2 ^ Nat.log2 m
    · cases g with
      | zero =>
        have ha : a = 0 := by omega
        subst ha
        rw [polyModF_zero_left, polyModF_zero_left]
      | succ g' =>
        show (if m ≤ 1 ∨ a < 2 ^ Nat.log2 m then a else _)
          = (if m ≤ 1 ∨ a < 2 ^ Nat.log2 m then a else _)
        rw [if_pos hcond, if_pos hcond]
    · push_neg at hcond
      obtain ⟨hm, ha⟩ := hcond
      have hstep := polyStep_lt a m (by omega) (by omega)
      cases g with
      | zero => omega
      | succ g' =>
        show (if m ≤ 1 ∨ a < 2 ^ Nat.log2 m then a else _)
          = (if m ≤ 1 ∨ a < 2 ^ Nat.log2 m then a else _)
        rw [if_neg (by omega), if_neg (by omega)]
        exact ih _ _ (by omega) (by omega)

theorem polyMod_rec (a m : Nat) :
    polyMod a m = if m ≤ 1 ∨ a < 2 ^ Nat.log2 m then a
      else polyMod (a ^^^ (m <<< (Nat.log2 a - Nat.log2 m))) m := by
  by_cases hcond : m ≤ 1 ∨ a < 2 ^ Nat.log2 m
  · rw [if_pos hcond]
    cases a with
    | zero => exact polyModF_zero_left 0 m
    | succ n =>
      show (if m ≤ 1 ∨ n+1 < 2 ^ Nat.log2 m then n+1 else _) = n+1
      rw [if_pos hcond]
  · rw [if_neg hcond]
    push_neg at hcond
    obtain ⟨hm, ha⟩ := hcond
    have ha0 : a ≠ 0 := by have := Nat.two_pow_pos (Nat.log2 m); omega
    cases a with
    | zero => omega
    | succ n =>
      show (if m ≤ 1 ∨ n+1 < 2 ^ Nat.log2 m then n+1 else
        polyModF n ((n+1) ^^^ (m <<< (Nat.log2 (n+1) - Nat.log2 m))) m) = _
      rw [if_neg (by omega)]
      have hstep := polyStep_lt (n+1) m (by omega) (by omega)
      exact polyModF_congr n _ _ m (by omega) (le_refl _)

theorem polyMod_lt (a m : Nat) (hm : 2 ≤ m) : polyMod a m < 2 ^ Nat.log2 m := by
  induction a using Nat.strong_induction_on with
  | _ a ih =>
    rw [polyMod_rec]
    split
    · next h =>
      rcases h with h | h
      · omega
      · exact h
    · next h =>
      push_neg at h
      exact ih _ (polyStep_lt a m (by omega) (by omega))

theorem polyMod_of_lt (a m : Nat) (h : a < 2 ^ Nat.log2 m) : polyMod a m = a := by
  rw [polyMod_rec, if_pos (Or.inr h)]

theorem polyMod_zero (m : Nat) : polyMod 0 m = 0 :=
  polyMod_of_lt 0 m (Nat.two_pow_pos _)

theorem polyMod_decomp (a m : Nat) : ∃ q, a = cmul q m ^^^ polyMod a m := by
  induction a using Nat.strong_induction_on with
  | _ a ih =>
    rw [polyMod_rec]
    split
    · exact ⟨0, by rw [zero_cmul, Nat.zero_xor]⟩
    · next h =>
      push_neg at h
      have hstep := polyStep_lt a m (by omega) (by omega)
      obtain ⟨q', hq'⟩ := ih _ hstep
      refine ⟨q' ^^^ 2 ^ (Nat.log2 a - Nat.log2 m), ?_⟩
      rw [cmul_xor_left, two_pow_cmul]
      have ha : a = (a ^^^ (m <<< (Nat.log2 a - Nat.log2 m)))
          ^^^ (m <<< (Nat.log2 a - Nat.log2 m)) := by
        rw [Nat.xor_assoc, Nat.xor_self, Nat.xor_zero]
      calc a = (a ^^^ (m <<< (Nat.log2 a - Nat.log2 m)))
            ^^^ (m <<< (Nat.log2 a - Nat.log2 m)) := ha
        _ = (cmul q' m ^^^ polyMod (a ^^^ (m <<< (Nat.log2 a - Nat.log2 m))) m)
            ^^^ (m <<< (Nat.log2 a - Nat.log2 m)) := by rw [← hq']
        _ = (cmul q' m ^^^ (m <<< (Nat.log2 a - Nat.log2 m)))
            ^^^ polyMod (a ^^^ (m <<< (Nat.log2 a - Nat.log2 m))) m := by
              simp [Nat.xor_assoc, xor_left_comm, Nat.xor_comm]

theorem polyMod_unique (a m q r : Nat) (hm : 2 ≤ m) (ha : a = cmul q m ^^^ r)
    (hr : r < 2 ^ Nat.log2 m) : polyMod a m = r := by
  obtain ⟨q₀, h₀⟩ := polyMod_decomp a m
  have hr₀ : polyMod a m < 2 ^ Nat.log2 m := polyMod_lt a m hm
  have heq : cmul q₀ m ^^^ polyMod a m = cmul q m ^^^ r := by rw [← h₀, ← ha]
  have hre := xor_rearrange _ _ _ _ heq
  rw [← cmul_xor_left] at hre
  by_cases hq : q₀ ^^^ q = 0
  · rw [hq, zero_cmul] at hre
    exact (Nat.xor_eq_zero.mp hre.symm)
  · exfalso
    have hge : 2 ^ Nat.log2 m ≤ cmul (q₀ ^^^ q) m :=
      cmul_ge _ m hq (by omega)
    have hlt : cmul (q₀ ^^^ q) m < 2 ^ Nat.log2 m := by
      rw [hre]
      exact Nat.xor_lt_two_pow hr₀ hr
    omega

theorem polyMod_xor (a b m : Nat) (hm : 2 ≤ m) :
    polyMod (a ^^^ b) m = polyMod a m ^^^ polyMod b m := by
  obtain ⟨qa, hqa⟩ := polyMod_decomp a m
  obtain ⟨qb, hqb⟩ := polyMod_decomp b m
  apply polyMod_unique _ m (qa ^^^ qb) _ hm
  · rw [cmul_xor_left]
    conv_lhs => rw [hqa, hqb]
    simp [Nat.xor_assoc, xor_left_comm]
  · exact Nat.xor_lt_two_pow (polyMod_lt a m hm) (polyMod_lt b m hm)

theorem polyMod_idem (a m : Nat) (hm : 2 ≤ m) : polyMod (polyMod a m) m = polyMod a m :=
  polyMod_of_lt _ m (polyMod_lt a m hm)

theorem polyMod_cmul_left (a b m : Nat) (hm : 2 ≤ m) :
    polyMod (cmul (polyMod a m) b) m = polyMod (cmul a b) m := by
  obtain ⟨qa, hqa⟩ := polyMod_decomp a m
  obtain ⟨q₂, hq₂⟩ := polyMod_decomp (cmul (polyMod a m) b) m
  apply (polyMod_unique (cmul a b) m (cmul qa b ^^^ q₂) _ hm ?_
    (polyMod_lt _ m hm)).symm
  conv_lhs => rw [hqa]
  rw [cmul_xor_left, cmul_xor_left]
  have hassoc : cmul (cmul qa m) b = cmul (cmul qa b) m := by
    rw [cmul_assoc, cmul_comm m b, ← cmul_assoc]
  rw [hassoc]
  conv_lhs => rw [hq₂]
  simp [Nat.xor_assoc, xor_left_comm]

theorem polyMod_cmul_right (a b m : Nat) (hm : 2 ≤ m) :
    polyMod (cmul a (polyMod b m)) m = polyMod (cmul a b) m := by
  rw [cmul_comm, polyMod_cmul_left b a m hm, cmul_comm]

/-! ### Further bit-manipulation bridges -/

theorem shiftRight_xor (a b k : Nat) : (a ^^^ b) >>> k = (a >>> k) ^^^ (b >>> k) := by
  apply Nat.eq_of_testBit_eq
  intro i
  simp [Nat.testBit_shiftRight, Nat.testBit_xor]

theorem mod_two_pow_xor (a b k : Nat) :
    (a ^^^ b) % 2 ^ k = (a % 2 ^ k) ^^^ (b % 2 ^ k) := by
  apply Nat.eq_of_testBit_eq
  intro i
  simp only [Nat.testBit_mod_two_pow, Nat.testBit_xor]
  by_cases h : i < k <;> simp [h]

theorem two_pow_mul_xor (a b k : Nat) (hb : b < 2 ^ k) :
    2 ^ k * a ^^^ b = 2 ^ k * a + b := by
  rw [Nat.mul_add_lt_is_or hb a]
  apply Nat.eq_of_testBit_eq
  intro j
  simp only [Nat.testBit_xor, Nat.testBit_or, Nat.testBit_mul_pow_two]
  by_cases h : j < k
  · simp [Nat.not_le_of_lt h]
  · have hb' : b < 2 ^ j :=
      lt_of_lt_of_le hb (Nat.pow_le_pow_right (by norm_num) (by omega))
    simp [Nat.le_of_not_lt h, Nat.testBit_lt_two_pow hb']

theorem split_shift (n k : Nat) : n = 2 ^ k * (n >>> k) ^^^ n % 2 ^ k := by
  rw [two_pow_mul_xor _ _ _ (Nat.mod_lt _ (Nat.two_pow_pos k)), Nat.shiftRight_eq_div_pow]
  exact (Nat.div_add_mod n (2 ^ k)).symm

theorem shiftRight_two_pow_mul (a k : Nat) : (2 ^ k * a) >>> k = a := by
  rw [Nat.shiftRight_eq_div_pow]
  exact Nat.mul_div_cancel_left a (Nat.two_pow_pos k)

theorem shiftRight_lt (x k j : Nat) (hx : x < 2 ^ (k + j)) : x >>> k < 2 ^ j := by
  rw [Nat.shiftRight_eq_div_pow]
  apply (Nat.div_lt_iff_lt_mul (Nat.two_pow_pos k)).mpr
  calc x < 2 ^ (k + j) := hx
    _ = 2 ^ j * 2 ^ k := by rw [← pow_add]; congr 1; omega

/-! ### The generic two-step Barrett-style fold

For a modulus `P = X^w + p₀` with `deg p₀ ≤ d` and `2d ≤ w`, the fold
`x ↦ x ⊕ ((((x ≫ w) ⊗ P) ≫ w) ⊗ P)` used by all three reduction routines
of `field.cpp` computes the exact carry-less remainder of any `x` of
degree below `2w`, and the result fits in `w` bits. -/

theorem barrett (w d p0 x : Nat) (hp : p0 < 2 ^ (d+1)) (hd : 1 ≤ d) (hdw : 2 * d ≤ w)
    (hx : x < 2 ^ (2 * w)) :
    x ^^^ cmul (cmul (x >>> w) (2 ^ w + p0) >>> w) (2 ^ w + p0) < 2 ^ w ∧
    polyMod x (2 ^ w + p0) = x ^^^ cmul (cmul (x >>> w) (2 ^ w + p0) >>> w) (2 ^ w + p0) := by
  have hw2 : 2 ≤ w := by omega
  have hp0w : p0 < 2 ^ w :=
    lt_of_lt_of_le hp (Nat.pow_le_pow_right (by norm_num) (by omega))
  have hPxor : 2 ^ w ^^^ p0 = 2 ^ w + p0 := by
    have h := two_pow_mul_xor 1 p0 w hp0w
    simpa using h
  have cmulP_split : ∀ y : Nat, cmul y (2 ^ w + p0) = 2 ^ w * y ^^^ cmul y p0 := by
    intro y
    rw [← hPxor, cmul_xor_right, cmul_two_pow, Nat.mul_comm]
  have hC1 : x >>> w < 2 ^ w := shiftRight_lt x w w (by
    have : 2 * w = w + w := by omega
    rw [this] at hx
    exact hx)
  have hU : cmul (x >>> w) p0 < 2 ^ (w + d) := by
    have h := cmul_lt w (d+1) (x >>> w) p0 (by omega) (by omega) hC1 hp
    have he : w + (d+1) - 1 = w + d := by omega
    rwa [he] at h
  have hD : cmul (x >>> w) p0 >>> w < 2 ^ d := shiftRight_lt _ w d hU
  have hA : cmul (x >>> w) (2 ^ w + p0) >>> w = (x >>> w) ^^^ (cmul (x >>> w) p0 >>> w) := by
    rw [cmulP_split, shiftRight_xor, shiftRight_two_pow_mul]
  have hDp0 : cmul (cmul (x >>> w) p0 >>> w) p0 < 2 ^ w := by
    have h := cmul_lt d (d+1) _ p0 (by omega) (by omega) hD hp
    calc cmul (cmul (x >>> w) p0 >>> w) p0 < 2 ^ (d + (d+1) - 1) := h
      _ ≤ 2 ^ w := Nat.pow_le_pow_right (by norm_num) (by omega)
  have hmain : x ^^^ cmul (cmul (x >>> w) (2 ^ w + p0) >>> w) (2 ^ w + p0)
      = x % 2 ^ w ^^^ (cmul (x >>> w) p0 % 2 ^ w
        ^^^ cmul (cmul (x >>> w) p0 >>> w) p0) := by
    rw [hA, cmul_xor_left, cmulP_split, cmulP_split]
    have key : ∀ X C1 C0 U D e Dp : Nat, X = 2 ^ w * C1 ^^^ C0 → U = 2 ^ w * D ^^^ e →
        X ^^^ ((2 ^ w * C1 ^^^ U) ^^^ (2 ^ w * D ^^^ Dp)) = C0 ^^^ (e ^^^ Dp) := by
      intro X C1 C0 U D e Dp hX hU2
      subst hX hU2
      simp [Nat.xor_assoc, xor_left_comm, Nat.xor_comm, xor_cancel_left, Nat.xor_self]
    exact key x _ _ _ _ _ _ (split_shift x w) (split_shift _ w)
  have hbound : x ^^^ cmul (cmul (x >>> w) (2 ^ w + p0) >>> w) (2 ^ w + p0) < 2 ^ w := by
    rw [hmain]
    exact Nat.xor_lt_two_pow (Nat.mod_lt _ (Nat.two_pow_pos w))
      (Nat.xor_lt_two_pow (Nat.mod_lt _ (Nat.two_pow_pos w)) hDp0)
  refine ⟨hbound, ?_⟩
  have hlog : Nat.log2 (2 ^ w + p0) = w := by
    have hne : 2 ^ w + p0 ≠ 0 := by have := Nat.two_pow_pos w; omega
    have h1 : w ≤ Nat.log2 (2 ^ w + p0) := (Nat.le_log2 hne).mpr (by omega)
    have h2 : Nat.log2 (2 ^ w + p0) < w + 1 := by
      apply (Nat.log2_lt hne).mpr
      calc 2 ^ w + p0 < 2 ^ w + 2 ^ w := by omega
        _ = 2 ^ (w+1) := by ring
    omega
  have h2w : 2 ≤ 2 ^ w := by
    calc (2:Nat) = 2 ^ 1 := by norm_num
      _ ≤ 2 ^ w := Nat.pow_le_pow_right (by norm_num) (by omega)
  apply polyMod_unique x _ (cmul (x >>> w) (2 ^ w + p0) >>> w) _ (by omega)
  · rw [Nat.xor_comm x, ← Nat.xor_assoc, Nat.xor_self, Nat.zero_xor]
  · rw [hlog]
    exact hbound

/-! ### Embedding of `field.cpp`: moduli and the three reduction routines

`clmul a b` models `_mm_clmulepi64_si128(_mm_set1_epi64x(a), _mm_set1_epi64x(b), 0)`
(carry-less product of the low 64 bits of each operand); `% 2 ^ 64`
models `_mm_extract_epi64 (…, 0)` and `>>> 64 % 2 ^ 64` models lane 1. -/

def clmul (a b : Nat) : Nat := cmul (a % 2 ^ 64) (b % 2 ^ 64)

/-- modulus = x^32 + x^7 + x^3 + x^2 + 1, assembled exactly as in `field.cpp`. -/
def P32 : Nat := (1 <<< 32) ||| (1 <<< 7) ||| (1 <<< 3) ||| (1 <<< 2) ||| (1 <<< 0)

/-- modulus = x^40 + x^5 + x^4 + x^3 + 1. -/
def P40 : Nat := (1 <<< 40) ||| (1 <<< 5) ||| (1 <<< 4) ||| (1 <<< 3) ||| (1 <<< 0)

/-- modulus = x^48 + x^5 + x^3 + x^2 + 1. -/
def P48 : Nat := (1 <<< 48) ||| (1 <<< 5) ||| (1 <<< 3) ||| (1 <<< 2) ||| (1 <<< 0)

theorem P32_eq : P32 = 2 ^ 32 + 141 := by decide
theorem P40_eq : P40 = 2 ^ 40 + 57 := by decide
theorem P48_eq : P48 = 2 ^ 48 + 45 := by decide

/-- `reduce_GF2_32` from `field.cpp` (`mu = P`; both carry-less folds use the
modulus itself). -/
def reduce_GF2_32 (x : Nat) : Nat :=
  let R := x % 2 ^ 64
  let T1 := clmul (R >>> 32) P32 % 2 ^ 64
  let T2 := clmul (T1 >>> 32) P32 % 2 ^ 64
  (R ^^^ T2) &&& 0xFFFFFFFF

/-- `reduce_GF2_40` from `field.cpp`. -/
def reduce_GF2_40 (x : Nat) : Nat :=
  let upper_mask := 0xFFFF
  let R := x % 2 ^ 64
  let R_red := (((x >>> 64) % 2 ^ 64) &&& upper_mask) <<< 24 ||| R >>> 40
  let T1 := clmul R_red P40
  let T1_red := (((T1 >>> 64) % 2 ^ 64) &&& upper_mask) <<< 24 ||| (T1 % 2 ^ 64) >>> 40
  let T2 := clmul T1_red P40 % 2 ^ 64
  (R ^^^ T2) &&& 0xFFFFFFFFFF

/-- `reduce_GF2_48` from `field.cpp`. -/
def reduce_GF2_48 (x : Nat) : Nat :=
  let upper_mask := 0xFFFFFFFF
  let R := x % 2 ^ 64
  let R_red := (((x >>> 64) % 2 ^ 64) &&& upper_mask) <<< 16 ||| R >>> 48
  let T1 := clmul R_red P48
  let T1_red := (((T1 >>> 64) % 2 ^ 64) &&& upper_mask) <<< 16 ||| (T1 % 2 ^ 64) >>> 48
  let T2 := clmul T1_red P48 % 2 ^ 64
  (R ^^^ T2) &&& 0xFFFFFFFFFFFF

/-! ### The two-lane extraction of the high half matches a plain shift -/

theorem extract_high (k t y : Nat) (hk : k ≤ 64) (ht : t ≤ 64) (hy : y < 2 ^ (64 + t)) :
    ((((y >>> 64) % 2 ^ 64) &&& (2 ^ t - 1)) <<< (64 - k)) ||| ((y % 2 ^ 64) >>> k)
      = y >>> k := by
  have hy64 : y >>> 64 < 2 ^ t := shiftRight_lt y 64 t hy
  have h1 : (y >>> 64) % 2 ^ 64 = y >>> 64 :=
    Nat.mod_eq_of_lt (lt_of_lt_of_le hy64 (Nat.pow_le_pow_right (by norm_num) ht))
  have h2 : (y >>> 64) &&& (2 ^ t - 1) = y >>> 64 :=
    Nat.and_pow_two_sub_one_of_lt_two_pow hy64
  rw [h1, h2]
  have h3 : (y % 2 ^ 64) >>> k = (y >>> k) % 2 ^ (64 - k) := by
    rw [Nat.shiftRight_eq_div_pow, Nat.shiftRight_eq_div_pow]
    rw [show (2:Nat) ^ 64 = 2 ^ k * 2 ^ (64 - k) from by rw [← pow_add]; congr 1; omega]
    exact Nat.mod_mul_right_div_self y (2 ^ k) (2 ^ (64 - k))
  have h4 : y >>> 64 = (y >>> k) >>> (64 - k) := by
    rw [← Nat.shiftRight_add]
    congr 1
    omega
  rw [h3, h4, Nat.shiftLeft_eq]
  rw [show (y >>> k) >>> (64 - k) * 2 ^ (64 - k) = 2 ^ (64 - k) * ((y >>> k) / 2 ^ (64 - k))
    from by rw [Nat.shiftRight_eq_div_pow, Nat.mul_comm]]
  rw [← Nat.mul_add_lt_is_or (Nat.mod_lt _ (Nat.two_pow_pos (64 - k))) _]
  exact Nat.div_add_mod (y >>> k) (2 ^ (64 - k))

theorem extract_high40 (y : Nat) (hy : y < 2 ^ 80) :
    ((((y >>> 64) % 2 ^ 64) &&& 0xFFFF) <<< 24) ||| ((y % 2 ^ 64) >>> 40) = y >>> 40 := by
  have h := extract_high 40 16 y (by norm_num) (by norm_num) (by simpa using hy)
  norm_num at h
  exact h

theorem extract_high48 (y : Nat) (hy : y < 2 ^ 96) :
    ((((y >>> 64) % 2 ^ 64) &&& 0xFFFFFFFF) <<< 16) ||| ((y % 2 ^ 64) >>> 48) = y >>> 48 := by
  have h := extract_high 48 32 y (by norm_num) (by norm_num) (by simpa using hy)
  norm_num at h
  exact h

/-! ### Exactness of the three reduction routines -/

/-- On any double-width input of the sizes `GF2E` multiplication can
produce, `reduce_GF2_32` is the exact carry-less remainder modulo
x^32 + x^7 + x^3 + x^2 + 1, and fits in 32 bits. -/
theorem reduce_GF2_32_spec (x : Nat) (hx : x < 2 ^ 64) :
    reduce_GF2_32 x = polyMod x P32 ∧ reduce_GF2_32 x < 2 ^ 32 := by
  have hb := barrett 32 7 141 x (by norm_num) (by norm_num) (by norm_num)
    (by have h : (2:Nat) ^ (2*32) = 2 ^ 64 := by norm_num
        omega)
  rw [← P32_eq] at hb
  have hc1 : x >>> 32 < 2 ^ 32 := shiftRight_lt x 32 32 (by simpa using hx)
  have hP64 : P32 < 2 ^ 64 := by decide
  have hclm1 : clmul (x >>> 32) P32 = cmul (x >>> 32) P32 := by
    simp only [clmul]
    rw [Nat.mod_eq_of_lt (lt_trans hc1 (by norm_num)), Nat.mod_eq_of_lt hP64]
  have hT1lt : cmul (x >>> 32) P32 < 2 ^ 64 := by
    have h := cmul_lt 32 33 (x >>> 32) P32 (by norm_num) (by norm_num) hc1 (by decide)
    simpa using h
  have hc2 : cmul (x >>> 32) P32 >>> 32 < 2 ^ 32 :=
    shiftRight_lt _ 32 32 (by simpa using hT1lt)
  have hclm2 : clmul (cmul (x >>> 32) P32 >>> 32) P32
      = cmul (cmul (x >>> 32) P32 >>> 32) P32 := by
    simp only [clmul]
    rw [Nat.mod_eq_of_lt (lt_trans hc2 (by norm_num)), Nat.mod_eq_of_lt hP64]
  have hT2lt : cmul (cmul (x >>> 32) P32 >>> 32) P32 < 2 ^ 64 := by
    have h := cmul_lt 32 33 (cmul (x >>> 32) P32 >>> 32) P32 (by norm_num) (by norm_num) hc2 (by decide)
    simpa using h
  have hval : reduce_GF2_32 x = x ^^^ cmul (cmul (x >>> 32) P32 >>> 32) P32 := by
    simp only [reduce_GF2_32]
    rw [Nat.mod_eq_of_lt hx, hclm1, Nat.mod_eq_of_lt hT1lt, hclm2, Nat.mod_eq_of_lt hT2lt]
    rw [show (0xFFFFFFFF:Nat) = 2 ^ 32 - 1 from by norm_num]
    exact Nat.and_pow_two_sub_one_of_lt_two_pow hb.1
  rw [hval]
  exact ⟨hb.2.symm, hb.1⟩

/-- `reduce_GF2_40` is the exact carry-less remainder modulo
x^40 + x^5 + x^4 + x^3 + 1, and fits in 40 bits. -/
theorem reduce_GF2_40_spec (x : Nat) (hx : x < 2 ^ 80) :
    reduce_GF2_40 x = polyMod x P40 ∧ reduce_GF2_40 x < 2 ^ 40 := by
  have hb := barrett 40 5 57 x (by norm_num) (by norm_num) (by norm_num)
    (by have h : (2:Nat) ^ (2*40) = 2 ^ 80 := by norm_num
        omega)
  rw [← P40_eq] at hb
  have hc1 : x >>> 40 < 2 ^ 40 := shiftRight_lt x 40 40 (by simpa using hx)
  have hP64 : P40 < 2 ^ 64 := by decide
  have hclm1 : clmul (x >>> 40) P40 = cmul (x >>> 40) P40 := by
    simp only [clmul]
    rw [Nat.mod_eq_of_lt (lt_trans hc1 (by norm_num)), Nat.mod_eq_of_lt hP64]
  have hT1lt : cmul (x >>> 40) P40 < 2 ^ 80 := by
    have h := cmul_lt 40 41 (x >>> 40) P40 (by norm_num) (by norm_num) hc1 (by decide)
    simpa using h
  have hc2 : cmul (x >>> 40) P40 >>> 40 < 2 ^ 40 :=
    shiftRight_lt _ 40 40 (by simpa using hT1lt)
  have hclm2 : clmul (cmul (x >>> 40) P40 >>> 40) P40
      = cmul (cmul (x >>> 40) P40 >>> 40) P40 := by
    simp only [clmul]
    rw [Nat.mod_eq_of_lt (lt_trans hc2 (by norm_num)), Nat.mod_eq_of_lt hP64]
  have hval : reduce_GF2_40 x = x ^^^ cmul (cmul (x >>> 40) P40 >>> 40) P40 := by
    simp only [reduce_GF2_40]
    rw [extract_high40 x hx, hclm1, extract_high40 _ hT1lt, hclm2]
    rw [show (0xFFFFFFFFFF:Nat) = 2 ^ 40 - 1 from by norm_num]
    rw [Nat.and_pow_two_sub_one_eq_mod, ← mod_two_pow_xor]
    rw [Nat.mod_mod_of_dvd _ (pow_dvd_pow 2 (by norm_num))]
    exact Nat.mod_eq_of_lt hb.1
  rw [hval]
  exact ⟨hb.2.symm, hb.1⟩

/-- `reduce_GF2_48` is the exact carry-less remainder modulo
x^48 + x^5 + x^3 + x^2 + 1, and fits in 48 bits. -/
theorem reduce_GF2_48_spec (x : Nat) (hx : x < 2 ^ 96) :
    reduce_GF2_48 x = polyMod x P48 ∧ reduce_GF2_48 x < 2 ^ 48 := by
  have hb := barrett 48 5 45 x (by norm_num) (by norm_num) (by norm_num)
    (by have h : (2:Nat) ^ (2*48) = 2 ^ 96 := by norm_num
        omega)
  rw [← P48_eq] at hb
  have hc1 : x >>> 48 < 2 ^ 48 := shiftRight_lt x 48 48 (by simpa using hx)
  have hP64 : P48 < 2 ^ 64 := by decide
  have hclm1 : clmul (x >>> 48) P48 = cmul (x >>> 48) P48 := by
    simp only [clmul]
    rw [Nat.mod_eq_of_lt (lt_trans hc1 (by norm_num)), Nat.mod_eq_of_lt hP64]
  have hT1lt : cmul (x >>> 48) P48 < 2 ^ 96 := by
    have h := cmul_lt 48 49 (x >>> 48) P48 (by norm_num) (by norm_num) hc1 (by decide)
    simpa using h
  have hc2 : cmul (x >>> 48) P48 >>> 48 < 2 ^ 48 :=
    shiftRight_lt _ 48 48 (by simpa using hT1lt)
  have hclm2 : clmul (cmul (x >>> 48) P48 >>> 48) P48
      = cmul (cmul (x >>> 48) P48 >>> 48) P48 := by
    simp only [clmul]
    rw [Nat.mod_eq_of_lt (lt_trans hc2 (by norm_num)), Nat.mod_eq_of_lt hP64]
  have hval : reduce_GF2_48 x = x ^^^ cmul (cmul (x >>> 48) P48 >>> 48) P48 := by
    simp only [reduce_GF2_48]
    rw [extract_high48 x hx, hclm1, extract_high48 _ hT1lt, hclm2]
    rw [show (0xFFFFFFFFFFFF:Nat) = 2 ^ 48 - 1 from by norm_num]
    rw [Nat.and_pow_two_sub_one_eq_mod, ← mod_two_pow_xor]
    rw [Nat.mod_mod_of_dvd _ (pow_dvd_pow 2 (by norm_num))]
    exact Nat.mod_eq_of_lt hb.1
  rw [hval]
  exact ⟨hb.2.symm, hb.1⟩

/-! ### The `GF2E` element operations and the per-lambda configuration

`init_extension_field` selects, per `lambda ∈ {4,5,6}`, the reduction
routine and `byte_size = lambda`; `GF2E::operator*` is
`reduce (clmul (data, other.data))`, `operator+`/`operator-` are xor, and
`GF2E::inverse` returns `*this` unchanged. -/

def lambdas : List Nat := [4, 5, 6]

def byte_sizeOf (lam : Nat) : Nat := lam

def widthOf (lam : Nat) : Nat := 8 * byte_sizeOf lam

def reduceOf (lam : Nat) : Nat → Nat :=
  if lam = 4 then reduce_GF2_32 else if lam = 5 then reduce_GF2_40 else reduce_GF2_48

def modulusOf (lam : Nat) : Nat :=
  if lam = 4 then P32 else if lam = 5 then P40 else P48

/-- `GF2E::operator*`: reduce the carry-less product of the two bitmasks. -/
def GF2E_mul (lam a b : Nat) : Nat := reduceOf lam (clmul a b)

/-- `GF2E::operator+` (and `operator-`): xor of the two bitmasks. -/
def GF2E_add (a b : Nat) : Nat := a ^^^ b

/-- `GF2E::inverse`: the source returns `*this` unchanged. -/
def inverse (a : Nat) : Nat := a

theorem modulus_facts (lam : Nat) (h : lam ∈ lambdas) :
    2 ≤ modulusOf lam ∧ Nat.log2 (modulusOf lam) = widthOf lam := by
  simp [lambdas] at h
  rcases h with rfl | rfl | rfl
  · refine ⟨by decide, ?_⟩
    have h1 : 32 ≤ Nat.log2 (modulusOf 4) := (Nat.le_log2 (by decide)).mpr (by decide)
    have h2 : Nat.log2 (modulusOf 4) < 33 := (Nat.log2_lt (by decide)).mpr (by decide)
    have h3 : widthOf 4 = 32 := by decide
    omega
  · refine ⟨by decide, ?_⟩
    have h1 : 40 ≤ Nat.log2 (modulusOf 5) := (Nat.le_log2 (by decide)).mpr (by decide)
    have h2 : Nat.log2 (modulusOf 5) < 41 := (Nat.log2_lt (by decide)).mpr (by decide)
    have h3 : widthOf 5 = 40 := by decide
    omega
  · refine ⟨by decide, ?_⟩
    have h1 : 48 ≤ Nat.log2 (modulusOf 6) := (Nat.le_log2 (by decide)).mpr (by decide)
    have h2 : Nat.log2 (modulusOf 6) < 49 := (Nat.log2_lt (by decide)).mpr (by decide)
    have h3 : widthOf 6 = 48 := by decide
    omega

theorem width_facts (lam : Nat) (h : lam ∈ lambdas) :
    0 < widthOf lam ∧ widthOf lam ≤ 64 := by
  simp [lambdas] at h
  rcases h with rfl | rfl | rfl <;> exact ⟨by decide, by decide⟩

theorem reduceOf_spec (lam : Nat) (h : lam ∈ lambdas) (x : Nat)
    (hx : x < 2 ^ (2 * widthOf lam)) :
    reduceOf lam x = polyMod x (modulusOf lam) ∧ reduceOf lam x < 2 ^ widthOf lam := by
  simp [lambdas] at h
  rcases h with rfl | rfl | rfl
  · have h32 : widthOf 4 = 32 := by decide
    rw [h32] at hx ⊢
    exact (by norm_num : (2:Nat) ^ (2 * 32) = 2 ^ 64) ▸ hx |> reduce_GF2_32_spec x
  · have h40 : widthOf 5 = 40 := by decide
    rw [h40] at hx ⊢
    exact (by norm_num : (2:Nat) ^ (2 * 40) = 2 ^ 80) ▸ hx |> reduce_GF2_40_spec x
  · have h48 : widthOf 6 = 48 := by decide
    rw [h48] at hx ⊢
    exact (by norm_num : (2:Nat) ^ (2 * 48) = 2 ^ 96) ▸ hx |> reduce_GF2_48_spec x

theorem clmul_eq_cmul (lam : Nat) (h : lam ∈ lambdas) (a b : Nat)
    (ha : a < 2 ^ widthOf lam) (hb : b < 2 ^ widthOf lam) : clmul a b = cmul a b := by
  obtain ⟨-, h64⟩ := width_facts lam h
  have h2 : (2:Nat) ^ widthOf lam ≤ 2 ^ 64 := Nat.pow_le_pow_right (by norm_num) h64
  simp only [clmul]
  rw [Nat.mod_eq_of_lt (by omega), Nat.mod_eq_of_lt (by omega)]

theorem cmul_lt_double (lam : Nat) (h : lam ∈ lambdas) (a b : Nat)
    (ha : a < 2 ^ widthOf lam) (hb : b < 2 ^ widthOf lam) :
    cmul a b < 2 ^ (2 * widthOf lam) := by
  obtain ⟨hpos, -⟩ := width_facts lam h
  have hc := cmul_lt (widthOf lam) (widthOf lam) a b hpos hpos ha hb
  calc cmul a b < 2 ^ (widthOf lam + widthOf lam - 1) := hc
    _ ≤ 2 ^ (2 * widthOf lam) := Nat.pow_le_pow_right (by norm_num) (by omega)

/-- Field multiplication computes the exact carry-less remainder. -/
theorem GF2E_mul_eq_polyMod (lam : Nat) (h : lam ∈ lambdas) (a b : Nat)
    (ha : a < 2 ^ widthOf lam) (hb : b < 2 ^ widthOf lam) :
    GF2E_mul lam a b = polyMod (cmul a b) (modulusOf lam) := by
  rw [GF2E_mul, clmul_eq_cmul lam h a b ha hb]
  exact (reduceOf_spec lam h _ (cmul_lt_double lam h a b ha hb)).1

theorem GF2E_mul_lt (lam : Nat) (h : lam ∈ lambdas) (a b : Nat)
    (ha : a < 2 ^ widthOf lam) (hb : b < 2 ^ widthOf lam) :
    GF2E_mul lam a b < 2 ^ widthOf lam := by
  rw [GF2E_mul, clmul_eq_cmul lam h a b ha hb]
  exact (reduceOf_spec lam h _ (cmul_lt_double lam h a b ha hb)).2

theorem GF2E_mul_comm (lam a b : Nat) : GF2E_mul lam a b = GF2E_mul lam b a := by
  rw [GF2E_mul, GF2E_mul, clmul, clmul, cmul_comm]

theorem GF2E_mul_zero (lam : Nat) (h : lam ∈ lambdas) (a : Nat) :
    GF2E_mul lam a 0 = 0 := by
  have hz : clmul a 0 = 0 := by
    simp [clmul, cmul_zero]
  rw [GF2E_mul, hz]
  have h0 := reduceOf_spec lam h 0 (Nat.two_pow_pos _)
  rw [h0.1, polyMod_zero]

theorem GF2E_zero_mul (lam : Nat) (h : lam ∈ lambdas) (a : Nat) :
    GF2E_mul lam 0 a = 0 := by
  rw [GF2E_mul_comm]
  exact GF2E_mul_zero lam h a

theorem GF2E_mul_one (lam : Nat) (h : lam ∈ lambdas) (a : Nat)
    (ha : a < 2 ^ widthOf lam) : GF2E_mul lam a 1 = a := by
  obtain ⟨hm2, hlog⟩ := modulus_facts lam h
  obtain ⟨hpos, -⟩ := width_facts lam h
  have h1 : (1:Nat) < 2 ^ widthOf lam := by
    calc (1:Nat) < 2 ^ 1 := by norm_num
      _ ≤ 2 ^ widthOf lam := Nat.pow_le_pow_right (by norm_num) (by omega)
  rw [GF2E_mul_eq_polyMod lam h a 1 ha h1, cmul_one]
  exact polyMod_of_lt a _ (by rw [hlog]; exact ha)

theorem GF2E_one_mul (lam : Nat) (h : lam ∈ lambdas) (a : Nat)
    (ha : a < 2 ^ widthOf lam) : GF2E_mul lam 1 a = a := by
  rw [GF2E_mul_comm]
  exact GF2E_mul_one lam h a ha

theorem GF2E_mul_assoc (lam : Nat) (h : lam ∈ lambdas) (a b c : Nat)
    (ha : a < 2 ^ widthOf lam) (hb : b < 2 ^ widthOf lam) (hc : c < 2 ^ widthOf lam) :
    GF2E_mul lam (GF2E_mul lam a b) c = GF2E_mul lam a (GF2E_mul lam b c) := by
  obtain ⟨hm2, hlog⟩ := modulus_facts lam h
  rw [GF2E_mul_eq_polyMod lam h _ c (GF2E_mul_lt lam h a b ha hb) hc,
    GF2E_mul_eq_polyMod lam h a _ ha (GF2E_mul_lt lam h b c hb hc),
    GF2E_mul_eq_polyMod lam h a b ha hb, GF2E_mul_eq_polyMod lam h b c hb hc]
  rw [polyMod_cmul_left _ _ _ hm2, polyMod_cmul_right _ _ _ hm2, cmul_assoc]

theorem GF2E_mul_xor (lam : Nat) (h : lam ∈ lambdas) (a b c : Nat)
    (ha : a < 2 ^ widthOf lam) (hb : b < 2 ^ widthOf lam) (hc : c < 2 ^ widthOf lam) :
    GF2E_mul lam a (b ^^^ c) = GF2E_mul lam a b ^^^ GF2E_mul lam a c := by
  obtain ⟨hm2, hlog⟩ := modulus_facts lam h
  rw [GF2E_mul_eq_polyMod lam h a _ ha (Nat.xor_lt_two_pow hb hc),
    GF2E_mul_eq_polyMod lam h a b ha hb, GF2E_mul_eq_polyMod lam h a c ha hc]
  rw [cmul_xor_right, polyMod_xor _ _ _ hm2]

theorem GF2E_xor_mul (lam : Nat) (h : lam ∈ lambdas) (a b c : Nat)
    (ha : a < 2 ^ widthOf lam) (hb : b < 2 ^ widthOf lam) (hc : c < 2 ^ widthOf lam) :
    GF2E_mul lam (a ^^^ b) c = GF2E_mul lam a c ^^^ GF2E_mul lam b c := by
  rw [GF2E_mul_comm, GF2E_mul_xor lam h c a b hc ha hb, GF2E_mul_comm lam c a,
    GF2E_mul_comm lam c b]

/-- C1: for every active configuration `lambda ∈ {4,5,6}` and all field
elements `a`, `b` fitting in `8·byte_size` bits, `multiply(a, b)` is the
carry-less product of the two bit patterns reduced modulo the active
field's irreducible polynomial — the two-step Barrett-style fold computes
the exact polynomial remainder — and the result has no bits set at or
above position `8·byte_size`. -/
theorem claim_C1 (lam a b : Nat) (hlam : lam ∈ lambdas)
    (ha : a < 2 ^ (8 * byte_sizeOf lam)) (hb : b < 2 ^ (8 * byte_sizeOf lam)) :
    GF2E_mul lam a b = polyMod (cmul a b) (modulusOf lam) ∧
    GF2E_mul lam a b < 2 ^ (8 * byte_sizeOf lam) :=
  ⟨GF2E_mul_eq_polyMod lam hlam a b ha hb, GF2E_mul_lt lam hlam a b ha hb⟩

theorem claim_C1_witness :
    (5 ∈ lambdas ∧ (0xfedcba9876:Nat) < 2 ^ (8 * byte_sizeOf 5)
      ∧ (0xdeadbeef12:Nat) < 2 ^ (8 * byte_sizeOf 5)) ∧
    (GF2E_mul 5 0xfedcba9876 0xdeadbeef12
        = polyMod (cmul 0xfedcba9876 0xdeadbeef12) (modulusOf 5) ∧
      GF2E_mul 5 0xfedcba9876 0xdeadbeef12 < 2 ^ (8 * byte_sizeOf 5)) :=
  ⟨⟨by decide, by decide, by decide⟩,
    claim_C1 5 0xfedcba9876 0xdeadbeef12 (by decide) (by decide) (by decide)⟩

/-- C6: `inverse(a)` returns the element unchanged (it is the identity on
field elements) rather than the multiplicative inverse in GF(2^λ): for
the 32-bit configuration, `a = 2` satisfies `a*a ≠ a` yet
`inverse(a)*a ≠ 1`. -/
theorem claim_C6 :
    (∀ a : Nat, inverse a = a) ∧
    GF2E_mul 4 2 2 ≠ 2 ∧ GF2E_mul 4 (inverse 2) 2 ≠ 1 :=
  ⟨fun _ => rfl, by decide, by decide⟩

/-! ### Embedding of `banquet_instances.cpp`

The `banquet_params_t` enumeration and the struct field names come from
`banquet_instances.h`, which is not among the inspected sources.
Modelled from the spec: parameter-set identifiers are consecutive small
integers, identifier 0 (`PARAMETER_SET_INVALID`) is explicitly
reserved/invalid, and `PARAMETER_SET_MAX_INDEX` is the number of rows of
the `instances` table (13: the reserved row plus twelve parameter sets). -/

structure banquet_aes_t where
  key_size : Nat
  block_size : Nat
  num_blocks : Nat
  num_sboxes : Nat
deriving DecidableEq

structure banquet_instance_t where
  aes_params : banquet_aes_t
  digest_size : Nat
  seed_size : Nat
  num_rounds : Nat
  num_MPC_parties : Nat
  m1 : Nat
  m2 : Nat
  lambda : Nat
  params : Nat
deriving DecidableEq

def AES128_PARAMS : banquet_aes_t := ⟨16, 16, 1, 200⟩
def AES192_PARAMS : banquet_aes_t := ⟨24, 16, 2, 416⟩
def AES256_PARAMS : banquet_aes_t := ⟨32, 16, 2, 500⟩

def PARAMETER_SET_INVALID : Nat := 0
def PARAMETER_SET_MAX_INDEX : Nat := 13

def instances : List banquet_instance_t := [
  ⟨⟨0, 0, 0, 0⟩, 0, 0, 0, 0, 0, 0, 0, PARAMETER_SET_INVALID⟩,
  ⟨AES128_PARAMS, 32, 16, 31, 64, 10, 20, 4, 1⟩,
  ⟨AES128_PARAMS, 32, 16, 31, 64, 20, 10, 4, 2⟩,
  ⟨AES128_PARAMS, 32, 16, 29, 64, 10, 20, 5, 3⟩,
  ⟨AES128_PARAMS, 32, 16, 27, 64, 10, 20, 6, 4⟩,
  ⟨AES128_PARAMS, 32, 16, 28, 128, 10, 20, 4, 5⟩,
  ⟨AES128_PARAMS, 32, 16, 26, 128, 10, 20, 5, 6⟩,
  ⟨AES128_PARAMS, 32, 16, 24, 128, 10, 20, 6, 7⟩,
  ⟨AES128_PARAMS, 32, 16, 25, 256, 10, 20, 4, 8⟩,
  ⟨AES128_PARAMS, 32, 16, 23, 256, 10, 20, 5, 9⟩,
  ⟨AES128_PARAMS, 32, 16, 21, 256, 10, 20, 6, 10⟩,
  ⟨AES192_PARAMS, 48, 24, 38, 64, 16, 26, 4, 11⟩,
  ⟨AES256_PARAMS, 64, 32, 50, 64, 20, 25, 4, 12⟩]

def defaultInstance : banquet_instance_t := ⟨⟨0, 0, 0, 0⟩, 0, 0, 0, 0, 0, 0, 0, 0⟩

/-- `banquet_instance_get` from `banquet_instances.cpp`. -/
def banquet_instance_get (param : Nat) : Except String banquet_instance_t :=
  if param ≤ PARAMETER_SET_INVALID ∨ param ≥ PARAMETER_SET_MAX_INDEX then
    .error "invalid parameter set"
  else .ok (instances.getD param defaultInstance)

/-- C9: the parameter-set lookup fails for the reserved identifier 0 and
for every identifier at or above the maximum index, and for every
identifier strictly in between it returns the corresponding fixed record
(the one whose `params` field is the requested identifier) without
error. -/
theorem claim_C9 (p : Nat) :
    ((p = 0 ∨ 13 ≤ p) → banquet_instance_get p = .error "invalid parameter set") ∧
    (0 < p → p < 13 →
      banquet_instance_get p = .ok (instances.getD p defaultInstance) ∧
      (instances.getD p defaultInstance).params = p) := by
  constructor
  · intro hp
    rw [banquet_instance_get, if_pos]
    simp only [PARAMETER_SET_INVALID, PARAMETER_SET_MAX_INDEX]
    omega
  · intro h1 h2
    refine ⟨?_, ?_⟩
    · rw [banquet_instance_get, if_neg]
      simp only [PARAMETER_SET_INVALID, PARAMETER_SET_MAX_INDEX]
      omega
    · interval_cases p <;> decide

theorem claim_C9_witness :
    banquet_instance_get 0 = .error "invalid parameter set" ∧
    banquet_instance_get 13 = .error "invalid parameter set" ∧
    banquet_instance_get 5 = .ok (instances.getD 5 defaultInstance) ∧
    (instances.getD 5 defaultInstance).params = 5 :=
  ⟨(claim_C9 0).1 (by decide), (claim_C9 13).1 (by decide),
    ((claim_C9 5).2 (by decide) (by decide)).1, ((claim_C9 5).2 (by decide) (by decide)).2⟩

/-! ### The lifting table and extension-field initialization

`init_lifting_lut` sets `lut[0] = 0`, `lut[1] = 1`, then for each bit
position `bit = 1..7` copies the table built so far and adds the running
generator power (`lut[start+idx] = lut[idx] + pow`), finally multiplying
`pow` by the generator.  `lutSteps mul gen b` is the table/power state
after the iteration for `bit = b`. -/

def lutSteps (mul : Nat → Nat → Nat) (gen : Nat) : Nat → List Nat × Nat
  | 0 => ([0, 1], gen)
  | b+1 =>
    let s := lutSteps mul gen b
    (s.1 ++ s.1.map (· ^^^ s.2), mul s.2 gen)

def init_lifting_lut (mul : Nat → Nat → Nat) (gen : Nat) : List Nat :=
  (lutSteps mul gen 7).1

/-- `lift_uint8_t` reads the (configured) lifting table. -/
def lift_uint8_t (lut : List Nat) (value : Nat) : Nat := lut.getD value 0

/-- Modelled from the spec: a `GF2E` is the coefficient bitmask of its
polynomial over GF(2) (`field.h`, which declares `set_coeff`, is not
among the inspected sources); `set_coeff i` sets coefficient bit `i`. -/
def set_coeff (d i : Nat) : Nat := d ||| (1 <<< i)

def gen_coeffs_4 : List Nat := [30, 23, 21, 18, 14, 13, 11, 9, 7, 6, 5, 4, 3, 1]

def gen_coeffs_5 : List Nat := [31, 30, 27, 25, 22, 21, 20, 18, 15, 9, 6, 4, 2]

def gen_coeffs_6 : List Nat :=
  [45, 43, 40, 37, 36, 35, 34, 33, 31, 30, 29, 28, 24, 21, 20, 19, 16, 14, 13, 11, 10, 7, 3, 2]

/-- The fixed embedding generator for λ = 4 (x ↦ y^30 + y^23 + ⋯ + y). -/
def gen_4 : Nat := gen_coeffs_4.foldl set_coeff 0

/-- The fixed embedding generator for λ = 5. -/
def gen_5 : Nat := gen_coeffs_5.foldl set_coeff 0

/-- The fixed embedding generator for λ = 6. -/
def gen_6 : Nat := gen_coeffs_6.foldl set_coeff 0

/-- The mutated globals of `GF2E::init_extension_field` (`reduce`,
`byte_size`, and the freshly built `lifting_lut`), gathered in a record. -/
structure FieldState where
  reduce : Nat → Nat
  byte_size : Nat
  lifting_lut : List Nat

/-- `GF2E::init_extension_field`: dispatch on `lambda`, selecting the
reduction routine, the byte width and the generator, and rebuilding the
lifting table with the just-configured multiplication; any other `lambda`
throws. -/
def init_extension_field (lambda : Nat) : Except String FieldState :=
  if lambda = 4 then
    .ok ⟨reduce_GF2_32, 4, init_lifting_lut (GF2E_mul 4) gen_4⟩
  else if lambda = 5 then
    .ok ⟨reduce_GF2_40, 5, init_lifting_lut (GF2E_mul 5) gen_5⟩
  else if lambda = 6 then
    .ok ⟨reduce_GF2_48, 6, init_lifting_lut (GF2E_mul 6) gen_6⟩
  else .error "modulus for that specific lambda not implemented."

theorem lutSteps_length (mul : Nat → Nat → Nat) (gen : Nat) :
    ∀ b, ((lutSteps mul gen b).1).length = 2 ^ (b+1) := by
  intro b
  induction b with
  | zero => rfl
  | succ b ih =>
    show ((lutSteps mul gen b).1 ++ ((lutSteps mul gen b).1).map _).length = 2 ^ (b+2)
    rw [List.length_append, List.length_map, ih]
    ring

/-- C7: `init_extension_field` fails with the unsupported-lambda error
for every `lambda` outside {4,5,6}; for `lambda ∈ {4,5,6}` it succeeds,
selecting the reduction routine matching that `lambda`, setting
`byte_size = lambda`, and rebuilding the 256-entry lifting table. -/
theorem claim_C7 :
    (∀ lam, lam ∉ lambdas →
      init_extension_field lam = .error "modulus for that specific lambda not implemented.") ∧
    (∀ lam, lam ∈ lambdas → ∃ st : FieldState,
      init_extension_field lam = .ok st ∧ st.reduce = reduceOf lam ∧
      st.byte_size = byte_sizeOf lam ∧ st.lifting_lut.length = 256) := by
  constructor
  · intro lam hlam
    simp only [lambdas, List.mem_cons, List.not_mem_nil, or_false] at hlam
    push_neg at hlam
    rw [init_extension_field, if_neg hlam.1, if_neg hlam.2.1, if_neg hlam.2.2]
  · intro lam hlam
    simp only [lambdas, List.mem_cons, List.not_mem_nil, or_false] at hlam
    have h256 : ∀ m g, (init_lifting_lut m g).length = 256 := by
      intro m g
      show ((lutSteps m g 7).1).length = 256
      rw [lutSteps_length]
      norm_num
    rcases hlam with rfl | rfl | rfl
    · exact ⟨_, rfl, rfl, rfl, h256 _ _⟩
    · exact ⟨_, rfl, rfl, rfl, h256 _ _⟩
    · exact ⟨_, rfl, rfl, rfl, h256 _ _⟩

theorem claim_C7_witness :
    init_extension_field 7 = .error "modulus for that specific lambda not implemented." ∧
    (∃ st : FieldState, init_extension_field 4 = .ok st ∧ st.reduce = reduceOf 4 ∧
      st.byte_size = byte_sizeOf 4 ∧ st.lifting_lut.length = 256) :=
  ⟨claim_C7.1 7 (by decide), claim_C7.2 4 (by decide)⟩

/-! ### Structure of the lifting table -/

/-- The running generator power used by the doubling loop at bit
position `b` (accumulated by repeated multiplication, `pow = pow * gen`);
`gpow 0 = 1` accounts for the initialization `lut[1] = 1`. -/
def gpow (mul : Nat → Nat → Nat) (gen : Nat) : Nat → Nat
  | 0 => 1
  | 1 => gen
  | b+2 => mul (gpow mul gen (b+1)) gen

theorem lutSteps_snd (mul : Nat → Nat → Nat) (gen : Nat) :
    ∀ b, (lutSteps mul gen b).2 = gpow mul gen (b+1)
  | 0 => rfl
  | b+1 => by
    show mul (lutSteps mul gen b).2 gen = _
    rw [lutSteps_snd mul gen b]
    rfl

/-- XOR of the generator powers selected by the low `k` bits of `v`. -/
def comboB (mul : Nat → Nat → Nat) (gen : Nat) : Nat → Nat → Nat
  | 0, _ => 0
  | k+1, v => comboB mul gen k v ^^^ (if v.testBit k then gpow mul gen k else 0)

theorem comboB_congr (mul : Nat → Nat → Nat) (gen k v w : Nat)
    (h : ∀ j, j < k → v.testBit j = w.testBit j) :
    comboB mul gen k v = comboB mul gen k w := by
  induction k with
  | zero => rfl
  | succ k ih =>
    show comboB mul gen k v ^^^ _ = comboB mul gen k w ^^^ _
    rw [ih (fun j hj => h j (by omega)), h k (by omega)]

theorem comboB_zero (mul : Nat → Nat → Nat) (gen : Nat) :
    ∀ k, comboB mul gen k 0 = 0 := by
  intro k
  induction k with
  | zero => rfl
  | succ k ih =>
    show comboB mul gen k 0 ^^^ _ = 0
    rw [ih]
    simp

theorem comboB_xor (mul : Nat → Nat → Nat) (gen k : Nat) :
    ∀ p q, comboB mul gen k (p ^^^ q) = comboB mul gen k p ^^^ comboB mul gen k q := by
  induction k with
  | zero => intro p q; simp [comboB]
  | succ k ih =>
    intro p q
    show comboB mul gen k (p ^^^ q) ^^^ _
      = (comboB mul gen k p ^^^ _) ^^^ (comboB mul gen k q ^^^ _)
    rw [ih, Nat.testBit_xor]
    cases hp : p.testBit k <;> cases hq : q.testBit k <;>
      simp [Nat.xor_assoc, xor_left_comm, Nat.xor_comm, xor_cancel_left, Nat.xor_self]

theorem comboB_two_pow_add (mul : Nat → Nat → Nat) (gen : Nat) (b : Nat) :
    ∀ k, b < k → ∀ idx, idx < 2 ^ b →
      comboB mul gen k (2 ^ b + idx) = comboB mul gen k idx ^^^ gpow mul gen b := by
  intro k
  induction k with
  | zero => omega
  | succ k ih =>
    intro hb idx hidx
    have hbig : 2 ^ b + idx < 2 ^ (b+1) := by
      have h2 : (2:Nat) ^ (b+1) = 2 ^ b + 2 ^ b := by ring
      omega
    by_cases hk : b = k
    · subst hk
      show
        comboB mul gen b (2 ^ b + idx) ^^^ (if (2 ^ b + idx).testBit b then gpow mul gen b else 0)
          = (comboB mul gen b idx ^^^ (if idx.testBit b then gpow mul gen b else 0))
            ^^^ gpow mul gen b
      rw [comboB_congr mul gen b (2 ^ b + idx) idx
        (fun j hj => Nat.testBit_two_pow_add_gt hj idx)]
      rw [Nat.testBit_two_pow_add_eq, Nat.testBit_lt_two_pow hidx]
      simp
    · have hbk : b < k := by omega
      show
        comboB mul gen k (2 ^ b + idx) ^^^ (if (2 ^ b + idx).testBit k then gpow mul gen k else 0)
          = (comboB mul gen k idx ^^^ (if idx.testBit k then gpow mul gen k else 0))
            ^^^ gpow mul gen b
      have hb1 : (2 ^ b + idx).testBit k = false := by
        apply Nat.testBit_lt_two_pow
        calc 2 ^ b + idx < 2 ^ (b+1) := hbig
          _ ≤ 2 ^ k := Nat.pow_le_pow_right (by norm_num) (by omega)
      have hb2 : idx.testBit k = false := by
        apply Nat.testBit_lt_two_pow
        calc idx < 2 ^ b := hidx
          _ ≤ 2 ^ k := Nat.pow_le_pow_right (by norm_num) (by omega)
      rw [hb1, hb2, ih hbk idx hidx]
      simp

theorem getD_append_left' (l r : List Nat) (i : Nat) (hi : i < l.length) :
    (l ++ r).getD i 0 = l.getD i 0 := by
  rw [List.getD_eq_getElem?_getD, List.getD_eq_getElem?_getD, List.getElem?_append_left hi]

theorem getD_append_right' (l r : List Nat) (i : Nat) (hi : l.length ≤ i) :
    (l ++ r).getD i 0 = r.getD (i - l.length) 0 := by
  rw [List.getD_eq_getElem?_getD, List.getD_eq_getElem?_getD, List.getElem?_append_right hi]

theorem getD_map_xor (l : List Nat) (c i : Nat) (hi : i < l.length) :
    (l.map (· ^^^ c)).getD i 0 = l.getD i 0 ^^^ c := by
  rw [List.getD_eq_getElem?_getD, List.getD_eq_getElem?_getD, List.getElem?_map,
    List.getElem?_eq_getElem hi]
  rfl

theorem lutSteps_getD (mul : Nat → Nat → Nat) (gen : Nat) :
    ∀ b v, v < 2 ^ (b+1) →
      ((lutSteps mul gen b).1).getD v 0 = comboB mul gen (b+1) v := by
  intro b
  induction b with
  | zero =>
    intro v hv
    interval_cases v
    · show (0:Nat) = comboB mul gen 1 0
      rw [comboB_zero]
    · show (1:Nat) = comboB mul gen 1 1
      show (1:Nat) = comboB mul gen 0 1 ^^^ (if Nat.testBit 1 0 then gpow mul gen 0 else 0)
      norm_num [comboB, gpow]
  | succ b ih =>
    intro v hv
    have hlen : ((lutSteps mul gen b).1).length = 2 ^ (b+1) := lutSteps_length mul gen b
    show ((lutSteps mul gen b).1
      ++ ((lutSteps mul gen b).1).map (· ^^^ (lutSteps mul gen b).2)).getD v 0 = _
    by_cases hc : v < 2 ^ (b+1)
    · rw [getD_append_left' _ _ v (by omega), ih v hc]
      show _ = comboB mul gen (b+1) v ^^^ _
      rw [Nat.testBit_lt_two_pow hc]
      simp
    · push_neg at hc
      have hidxlt : v - 2 ^ (b+1) < 2 ^ (b+1) := by
        have h2 : (2:Nat) ^ (b+2) = 2 ^ (b+1) + 2 ^ (b+1) := by ring
        omega
      have hv2 : v = 2 ^ (b+1) + (v - 2 ^ (b+1)) := by omega
      rw [getD_append_right' _ _ v (by omega), hlen,
        getD_map_xor _ _ _ (by omega), ih _ hidxlt, lutSteps_snd]
      conv_rhs => rw [hv2]
      rw [comboB_two_pow_add mul gen (b+1) (b+2) (by omega) _ hidxlt]
      have hstep : comboB mul gen (b+2) (v - 2 ^ (b+1))
          = comboB mul gen (b+1) (v - 2 ^ (b+1)) := by
        show comboB mul gen (b+1) _ ^^^ _ = _
        rw [Nat.testBit_lt_two_pow hidxlt]
        simp
      rw [hstep]

theorem init_lifting_lut_getD (mul : Nat → Nat → Nat) (gen v : Nat) (hv : v < 256) :
    (init_lifting_lut mul gen).getD v 0 = comboB mul gen 8 v :=
  lutSteps_getD mul gen 7 v (by norm_num; omega)

/-- The three C5 properties, generically in the configured multiplication
and generator. -/
theorem lut_main (mul : Nat → Nat → Nat) (gen : Nat) :
    (lift_uint8_t (init_lifting_lut mul gen) 0 = 0 ∧
      lift_uint8_t (init_lifting_lut mul gen) 1 = 1) ∧
    (∀ b, 1 ≤ b → b ≤ 7 → ∀ idx, idx < 2 ^ b →
      lift_uint8_t (init_lifting_lut mul gen) (2 ^ b + idx)
        = lift_uint8_t (init_lifting_lut mul gen) idx ^^^ gpow mul gen b) ∧
    (∀ p, p < 256 → ∀ q, q < 256 →
      lift_uint8_t (init_lifting_lut mul gen) p ^^^ lift_uint8_t (init_lifting_lut mul gen) q
        = lift_uint8_t (init_lifting_lut mul gen) (p ^^^ q)) := by
  refine ⟨⟨?_, ?_⟩, ?_, ?_⟩
  · rw [lift_uint8_t, init_lifting_lut_getD mul gen 0 (by norm_num), comboB_zero]
  · rw [lift_uint8_t, init_lifting_lut_getD mul gen 1 (by norm_num)]
    have h1 : (1:Nat) = 2 ^ 0 + 0 := by norm_num
    rw [h1, comboB_two_pow_add mul gen 0 8 (by norm_num) 0 (by norm_num), comboB_zero]
    norm_num [gpow]
  · intro b hb1 hb7 idx hidx
    have hlt : 2 ^ b + idx < 256 := by
      have h2 : (2:Nat) ^ (b+1) = 2 ^ b + 2 ^ b := by ring
      have h3 : (2:Nat) ^ (b+1) ≤ 2 ^ 8 := Nat.pow_le_pow_right (by norm_num) (by omega)
      have h4 : (2:Nat) ^ 8 = 256 := by norm_num
      omega
    have hidx256 : idx < 256 := by
      have h3 : (2:Nat) ^ b ≤ 2 ^ 8 := Nat.pow_le_pow_right (by norm_num) (by omega)
      have h4 : (2:Nat) ^ 8 = 256 := by norm_num
      omega
    rw [lift_uint8_t, lift_uint8_t, init_lifting_lut_getD mul gen _ hlt,
      init_lifting_lut_getD mul gen _ hidx256,
      comboB_two_pow_add mul gen b 8 (by omega) idx hidx]
  · intro p hp q hq
    have hpq : p ^^^ q < 256 := by
      have h4 : (256:Nat) = 2 ^ 8 := by norm_num
      rw [h4] at hp hq ⊢
      exact Nat.xor_lt_two_pow hp hq
    rw [lift_uint8_t, lift_uint8_t, lift_uint8_t, init_lifting_lut_getD mul gen _ hp,
      init_lifting_lut_getD mul gen _ hq, init_lifting_lut_getD mul gen _ hpq, comboB_xor]

def genOf (lam : Nat) : Nat :=
  if lam = 4 then gen_4 else if lam = 5 then gen_5 else gen_6

/-- C5: after configuration for any `lambda ∈ {4,5,6}`, the 256-entry
lifting table satisfies the doubling construction — `lift(0) = 0`,
`lift(1) = 1`, and for each bit position `b ∈ 1..7` and `idx < 2^b`,
`lift(2^b + idx) = lift(idx) + generator^b` (the powers accumulated by
repeated multiplication) — and consequently lifting preserves the
additive structure of GF(2^8): `lift(p) + lift(q) = lift(p XOR q)` for
all bytes `p`, `q`. -/
theorem claim_C5 (lam : Nat) (hlam : lam ∈ lambdas) (st : FieldState)
    (hinit : init_extension_field lam = .ok st) :
    (lift_uint8_t st.lifting_lut 0 = 0 ∧ lift_uint8_t st.lifting_lut 1 = 1) ∧
    (∀ b, 1 ≤ b → b ≤ 7 → ∀ idx, idx < 2 ^ b →
      lift_uint8_t st.lifting_lut (2 ^ b + idx)
        = lift_uint8_t st.lifting_lut idx ^^^ gpow (GF2E_mul lam) (genOf lam) b) ∧
    (∀ p, p < 256 → ∀ q, q < 256 →
      lift_uint8_t st.lifting_lut p ^^^ lift_uint8_t st.lifting_lut q
        = lift_uint8_t st.lifting_lut (p ^^^ q)) := by
  simp only [lambdas, List.mem_cons, List.not_mem_nil, or_false] at hlam
  rcases hlam with rfl | rfl | rfl
  · have h4 : init_extension_field 4
        = .ok ⟨reduce_GF2_32, 4, init_lifting_lut (GF2E_mul 4) gen_4⟩ := rfl
    rw [h4] at hinit
    injection hinit with hst
    subst hst
    exact lut_main (GF2E_mul 4) gen_4
  · have h5 : init_extension_field 5
        = .ok ⟨reduce_GF2_40, 5, init_lifting_lut (GF2E_mul 5) gen_5⟩ := rfl
    rw [h5] at hinit
    injection hinit with hst
    subst hst
    exact lut_main (GF2E_mul 5) gen_5
  · have h6 : init_extension_field 6
        = .ok ⟨reduce_GF2_48, 6, init_lifting_lut (GF2E_mul 6) gen_6⟩ := rfl
    rw [h6] at hinit
    injection hinit with hst
    subst hst
    exact lut_main (GF2E_mul 6) gen_6

theorem claim_C5_witness :
    (4 ∈ lambdas ∧ init_extension_field 4
      = .ok ⟨reduce_GF2_32, 4, init_lifting_lut (GF2E_mul 4) gen_4⟩) ∧
    ((lift_uint8_t (init_lifting_lut (GF2E_mul 4) gen_4) 0 = 0 ∧
      lift_uint8_t (init_lifting_lut (GF2E_mul 4) gen_4) 1 = 1) ∧
    (∀ b, 1 ≤ b → b ≤ 7 → ∀ idx, idx < 2 ^ b →
      lift_uint8_t (init_lifting_lut (GF2E_mul 4) gen_4) (2 ^ b + idx)
        = lift_uint8_t (init_lifting_lut (GF2E_mul 4) gen_4) idx
          ^^^ gpow (GF2E_mul 4) (genOf 4) b) ∧
    (∀ p, p < 256 → ∀ q, q < 256 →
      lift_uint8_t (init_lifting_lut (GF2E_mul 4) gen_4) p
          ^^^ lift_uint8_t (init_lifting_lut (GF2E_mul 4) gen_4) q
        = lift_uint8_t (init_lifting_lut (GF2E_mul 4) gen_4) (p ^^^ q))) :=
  ⟨⟨by decide, rfl⟩,
    claim_C5 4 (by decide) ⟨reduce_GF2_32, 4, init_lifting_lut (GF2E_mul 4) gen_4⟩ rfl⟩

/-! ### Vector operations, dot product and interpolation -/

/-- `operator+` on `std::vector<GF2E>`: throws on size mismatch, else
copies `lhs` and xors `rhs` in elementwise (identical behaviour to the
throwing `operator+=`). -/
def vec_add (lhs rhs : List Nat) : Except String (List Nat) :=
  if lhs.length ≠ rhs.length then .error "adding vectors of different sizes"
  else .ok (List.zipWith (· ^^^ ·) lhs rhs)

/-- `operator*(std::vector<GF2E>, GF2E)`: elementwise multiplication by a
scalar (`result[i] *= rhs`). -/
def vec_scalar_mul (lam : Nat) (lhs : List Nat) (rhs : Nat) : List Nat :=
  lhs.map (fun x => GF2E_mul lam x rhs)

/-- `dot_product`: throws on size mismatch, else XOR-accumulates the
unreduced double-width carry-less products into one accumulator and
performs a single final (lazy) reduction. -/
def dot_product (lam : Nat) (lhs rhs : List Nat) : Except String Nat :=
  if lhs.length ≠ rhs.length then .error "adding vectors of different sizes"
  else .ok (reduceOf lam ((List.zipWith clmul lhs rhs).foldl (· ^^^ ·) 0))

/-- `interpolate_with_precomputation`: rejects mismatched or empty
inputs, then starts from the zero vector sized by the first basis
polynomial (default-constructed `GF2E` data is modelled as 0, `field.h`
not being among the inspected sources) and accumulates `pre[k]·y[k]`
using the throwing vector `operator+=`. -/
def interpolate_with_precomputation (lam : Nat) (pre : List (List Nat)) (ys : List Nat) :
    Except String (List Nat) :=
  if pre.length ≠ ys.length ∨ ys.isEmpty then .error "invalid sizes for interpolation"
  else
    (List.zip pre ys).foldlM
      (fun res py => vec_add res (vec_scalar_mul lam py.1 py.2))
      (List.replicate (pre.headD []).length 0)

theorem foldlM_vec_add_ok (lam : Nat) :
    ∀ (l : List (List Nat × Nat)) (res : List Nat),
    (∀ py ∈ l, py.1.length = res.length) →
    ∃ out, List.foldlM (fun r py => vec_add r (vec_scalar_mul lam py.1 py.2)) res l
        = .ok out ∧ out.length = res.length := by
  intro l
  induction l with
  | nil =>
    intro res _
    exact ⟨res, rfl, rfl⟩
  | cons py t ih =>
    intro res h
    have hlen : py.1.length = res.length := h py (by simp)
    have hadd : vec_add res (vec_scalar_mul lam py.1 py.2)
        = .ok (List.zipWith (· ^^^ ·) res (vec_scalar_mul lam py.1 py.2)) := by
      rw [vec_add, if_neg]
      simp [vec_scalar_mul, hlen]
    have hzlen : (List.zipWith (· ^^^ ·) res (vec_scalar_mul lam py.1 py.2)).length
        = res.length := by
      simp [vec_scalar_mul, hlen]
    obtain ⟨out, hout, holen⟩ := ih (List.zipWith (· ^^^ ·) res (vec_scalar_mul lam py.1 py.2))
      (fun q hq => by rw [hzlen]; exact h q (by simp [hq]))
    refine ⟨out, ?_, by rw [holen, hzlen]⟩
    rw [List.foldlM_cons, hadd]
    simpa using hout

theorem claim_C8_counterexample :
    ([[1], [1, 2]] : List (List Nat)).length = ([1, 1] : List Nat).length ∧
    ([1, 1] : List Nat) ≠ [] ∧
    interpolate_with_precomputation 4 [[1], [1, 2]] [1, 1]
      = .error "adding vectors of different sizes" := by
  refine ⟨rfl, by decide, ?_⟩
  rfl

/-- C8 (amended): vector addition of sequences with differing lengths
fails with the size-mismatch error, never truncating or padding, and with
equal lengths it succeeds; `interpolate_with_precomputation` fails with
the size-mismatch error whenever the basis-set length differs from the
y-values length or the inputs are empty, and with equal non-empty
lengths it succeeds provided all precomputed basis polynomials have the
same length (as those produced by `precompute_lagrange_polynomials` do);
a ragged basis set makes the internal vector `+=` throw instead. -/
theorem claim_C8_amended :
    (∀ u v : List Nat, u.length ≠ v.length →
      vec_add u v = .error "adding vectors of different sizes") ∧
    (∀ u v : List Nat, u.length = v.length →
      vec_add u v = .ok (List.zipWith (· ^^^ ·) u v)) ∧
    (∀ (lam : Nat) (pre : List (List Nat)) (ys : List Nat),
      pre.length ≠ ys.length ∨ ys = [] →
      interpolate_with_precomputation lam pre ys
        = .error "invalid sizes for interpolation") ∧
    (∀ (lam : Nat) (pre : List (List Nat)) (ys : List Nat),
      pre.length = ys.length → ys ≠ [] →
      (∀ p ∈ pre, p.length = (pre.headD []).length) →
      ∃ res, interpolate_with_precomputation lam pre ys = .ok res) := by
  refine ⟨?_, ?_, ?_, ?_⟩
  · intro u v h
    rw [vec_add, if_pos h]
  · intro u v h
    rw [vec_add, if_neg (by omega)]
  · intro lam pre ys h
    rw [interpolate_with_precomputation, if_pos]
    rcases h with h | h
    · exact Or.inl h
    · exact Or.inr (by simp [h])
  · intro lam pre ys hlen hne hunif
    rw [interpolate_with_precomputation, if_neg (by simp [hlen, hne])]
    have hmem : ∀ py ∈ List.zip pre ys,
        py.1.length = (List.replicate (pre.headD []).length (0:Nat)).length := by
      intro py hpy
      obtain ⟨x, y⟩ := py
      obtain ⟨hx, -⟩ := List.of_mem_zip hpy
      rw [List.length_replicate]
      exact hunif x hx
    obtain ⟨out, hout, -⟩ := foldlM_vec_add_ok lam (List.zip pre ys) _ hmem
    exact ⟨out, hout⟩

theorem claim_C8_witness :
    vec_add [1] [1, 2] = .error "adding vectors of different sizes" ∧
    (∃ res, interpolate_with_precomputation 4 [[1, 2], [3, 4]] [5, 6] = .ok res) :=
  ⟨claim_C8_amended.1 [1] [1, 2] (by decide),
    claim_C8_amended.2.2.2 4 [[1, 2], [3, 4]] [5, 6] rfl (by decide) (by decide)⟩

/-! ### Lazy versus eager reduction in the dot product -/

theorem reduceOf_zero (lam : Nat) (h : lam ∈ lambdas) : reduceOf lam 0 = 0 := by
  have h0 := reduceOf_spec lam h 0 (Nat.two_pow_pos _)
  rw [h0.1, polyMod_zero]

theorem zipWith_eq_map_zip (f : Nat → Nat → Nat) :
    ∀ u v : List Nat, List.zipWith f u v = (List.zip u v).map fun ab => f ab.1 ab.2 := by
  intro u
  induction u with
  | nil => intro v; rfl
  | cons a t ih =>
    intro v
    cases v with
    | nil => rfl
    | cons b s => simp [ih]

theorem dot_core (lam : Nat) (h : lam ∈ lambdas) :
    ∀ (l : List (Nat × Nat)),
    (∀ ab ∈ l, ab.1 < 2 ^ widthOf lam ∧ ab.2 < 2 ^ widthOf lam) →
    ∀ acc, acc < 2 ^ (2 * widthOf lam - 1) →
    reduceOf lam ((l.map fun ab => clmul ab.1 ab.2).foldl (· ^^^ ·) acc)
      = (l.map fun ab => GF2E_mul lam ab.1 ab.2).foldl (· ^^^ ·) (reduceOf lam acc) := by
  intro l
  induction l with
  | nil => intro _ acc _; rfl
  | cons ab t ih =>
    intro hmem acc hacc
    obtain ⟨ha, hb⟩ := hmem ab (by simp)
    obtain ⟨hpos, -⟩ := width_facts lam h
    obtain ⟨hm2, hlog⟩ := modulus_facts lam h
    have hcl : clmul ab.1 ab.2 = cmul ab.1 ab.2 := clmul_eq_cmul lam h _ _ ha hb
    have hterm : clmul ab.1 ab.2 < 2 ^ (2 * widthOf lam - 1) := by
      rw [hcl]
      have hc := cmul_lt (widthOf lam) (widthOf lam) _ _ hpos hpos ha hb
      have he : widthOf lam + widthOf lam - 1 = 2 * widthOf lam - 1 := by omega
      rwa [he] at hc
    have hacc' : acc ^^^ clmul ab.1 ab.2 < 2 ^ (2 * widthOf lam - 1) :=
      Nat.xor_lt_two_pow hacc hterm
    have hwide : (2:Nat) ^ (2 * widthOf lam - 1) ≤ 2 ^ (2 * widthOf lam) :=
      Nat.pow_le_pow_right (by norm_num) (by omega)
    show reduceOf lam ((t.map fun ab => clmul ab.1 ab.2).foldl (· ^^^ ·)
      (acc ^^^ clmul ab.1 ab.2)) = (t.map fun ab => GF2E_mul lam ab.1 ab.2).foldl (· ^^^ ·)
      (reduceOf lam acc ^^^ GF2E_mul lam ab.1 ab.2)
    rw [ih (fun q hq => hmem q (by simp [hq])) _ hacc']
    congr 1
    rw [(reduceOf_spec lam h _ (by omega)).1, (reduceOf_spec lam h _ (by omega)).1,
      polyMod_xor _ _ _ hm2]
    congr 1
    rw [GF2E_mul, (reduceOf_spec lam h _ (by omega)).1]

/-- C2: for equal-length vectors of field elements under any active
configuration, the lazily reduced dot product (single reduction of the
XOR-accumulated unreduced carry-less products) equals the eagerly
reduced sum `Σᵢ uᵢ·vᵢ` with one reduction per term. -/
theorem claim_C2 (lam : Nat) (hlam : lam ∈ lambdas) (u v : List Nat)
    (hlen : u.length = v.length)
    (hu : ∀ x ∈ u, x < 2 ^ widthOf lam) (hv : ∀ x ∈ v, x < 2 ^ widthOf lam) :
    dot_product lam u v
      = .ok (((List.zip u v).map fun ab => GF2E_mul lam ab.1 ab.2).foldl (· ^^^ ·) 0) := by
  rw [dot_product, if_neg (by omega)]
  have hmem : ∀ ab ∈ List.zip u v, ab.1 < 2 ^ widthOf lam ∧ ab.2 < 2 ^ widthOf lam := by
    intro ab hab
    obtain ⟨x, y⟩ := ab
    obtain ⟨h1, h2⟩ := List.of_mem_zip hab
    exact ⟨hu _ h1, hv _ h2⟩
  have h := dot_core lam hlam (List.zip u v) hmem 0 (Nat.two_pow_pos _)
  rw [zipWith_eq_map_zip, h, reduceOf_zero lam hlam]

theorem claim_C2_witness :
    (4 ∈ lambdas ∧ ([3, 5] : List Nat).length = ([7, 11] : List Nat).length) ∧
    dot_product 4 [3, 5] [7, 11]
      = .ok (((List.zip ([3, 5] : List Nat) [7, 11]).map
          fun ab => GF2E_mul 4 ab.1 ab.2).foldl (· ^^^ ·) 0) :=
  ⟨⟨by decide, rfl⟩, claim_C2 4 (by decide) [3, 5] [7, 11] rfl (by decide) (by decide)⟩

/-! ### Root-polynomial construction (`build_from_roots`)

The C++ routine copies the roots, appends a zero, then for
`k = 1 .. len-1` performs `tmp = poly[k]; poly[k] = tmp + poly[k-1]`, a
backward sweep `poly[i] = poly[i]*tmp + poly[i-1]` for `i = k-1 .. 1`,
and `poly[0] *= tmp`; finally it forces `poly[len] = 1`. -/

/-- The inner backward sweep (`for i = k-1; i >= 1; i--`); the second
argument is the current loop index. -/
def sweep (lam tmp : Nat) : List Nat → Nat → List Nat
  | poly, 0 => poly
  | poly, i+1 =>
    sweep lam tmp (poly.set (i+1) (GF2E_mul lam (poly.getD (i+1) 0) tmp ^^^ poly.getD i 0)) i

/-- One iteration of the outer loop of `build_from_roots`. -/
def buildStep (lam : Nat) (poly : List Nat) (k : Nat) : List Nat :=
  let tmp := poly.getD k 0
  let poly1 := poly.set k (tmp ^^^ poly.getD (k-1) 0)
  let poly2 := sweep lam tmp poly1 (k-1)
  poly2.set 0 (GF2E_mul lam (poly2.getD 0 0) tmp)

/-- `build_from_roots` from `field.cpp`. -/
def build_from_roots (lam : Nat) (roots : List Nat) : List Nat :=
  let len := roots.length
  let poly := roots ++ [0]
  let poly := ((List.range len).drop 1).foldl (buildStep lam) poly
  poly.set len 1

/-- C10: `build_from_roots` applied to an empty root list does not fail:
it returns `[1]`, the constant polynomial 1 (the empty product), so the
monic-product postcondition extends to `m = 0`. -/
theorem claim_C10 (lam : Nat) :
    build_from_roots lam [] = [1] ∧ ([1] : List Nat).length = 0 + 1 ∧
    ([1] : List Nat).getLast? = some 1 :=
  ⟨rfl, rfl, rfl⟩

/-! Pointwise `getD` helpers. -/

theorem getD_eq_getElem (l : List Nat) (j : Nat) (hj : j < l.length) : l.getD j 0 = l[j] := by
  rw [List.getD_eq_getElem?_getD, List.getElem?_eq_getElem hj]
  rfl

theorem getD_eq_zero_of_ge (l : List Nat) (j : Nat) (hj : l.length ≤ j) : l.getD j 0 = 0 := by
  rw [List.getD_eq_getElem?_getD, List.getElem?_eq_none hj]
  rfl

theorem getD_set_self (l : List Nat) (i v : Nat) (h : i < l.length) :
    (l.set i v).getD i 0 = v := by
  rw [List.getD_eq_getElem?_getD, List.getElem?_set_self h]
  rfl

theorem getD_set_ne (l : List Nat) (i j v : Nat) (h : i ≠ j) :
    (l.set i v).getD j 0 = l.getD j 0 := by
  rw [List.getD_eq_getElem?_getD, List.getElem?_set_ne h, List.getD_eq_getElem?_getD]

theorem sweep_length (lam tmp : Nat) : ∀ (i : Nat) (poly : List Nat),
    (sweep lam tmp poly i).length = poly.length := by
  intro i
  induction i with
  | zero => intro poly; rfl
  | succ i ih =>
    intro poly
    show (sweep lam tmp _ i).length = _
    rw [ih, List.length_set]

theorem sweep_getD (lam tmp : Nat) : ∀ (i : Nat) (poly : List Nat), i < poly.length →
    ∀ j, (sweep lam tmp poly i).getD j 0
      = if 1 ≤ j ∧ j ≤ i then GF2E_mul lam (poly.getD j 0) tmp ^^^ poly.getD (j-1) 0
        else poly.getD j 0 := by
  intro i
  induction i with
  | zero =>
    intro poly _ j
    rw [if_neg (by omega)]
    rfl
  | succ i ih =>
    intro poly hlen j
    show (sweep lam tmp (poly.set (i+1) _) i).getD j 0 = _
    rw [ih (poly.set (i+1) (GF2E_mul lam (poly.getD (i+1) 0) tmp ^^^ poly.getD i 0))
      (by rw [List.length_set]; omega) j]
    by_cases h1 : 1 ≤ j ∧ j ≤ i
    · rw [if_pos h1, if_pos (by omega)]
      rw [getD_set_ne _ _ _ _ (by omega), getD_set_ne _ _ _ _ (by omega)]
    · rw [if_neg h1]
      by_cases h2 : j = i + 1
      · subst h2
        rw [if_pos (by omega)]
        rw [getD_set_self _ _ _ hlen]
        norm_num
      · rw [if_neg (by omega), getD_set_ne _ _ _ _ (by omega)]

theorem buildStep_length (lam : Nat) (poly : List Nat) (k : Nat) :
    (buildStep lam poly k).length = poly.length := by
  show ((sweep lam _ (poly.set k _) (k-1)).set 0 _).length = _
  rw [List.length_set, sweep_length, List.length_set]

theorem buildStep_getD (lam : Nat) (poly : List Nat) (k : Nat) (hk : 1 ≤ k)
    (hklen : k < poly.length) (j : Nat) :
    (buildStep lam poly k).getD j 0 =
      if j = 0 then GF2E_mul lam (poly.getD 0 0) (poly.getD k 0)
      else if j < k then GF2E_mul lam (poly.getD j 0) (poly.getD k 0) ^^^ poly.getD (j-1) 0
      else if j = k then poly.getD k 0 ^^^ poly.getD (k-1) 0
      else poly.getD j 0 := by
  have hlen1 : (poly.set k (poly.getD k 0 ^^^ poly.getD (k-1) 0)).length = poly.length :=
    List.length_set ..
  have hs := sweep_getD lam (poly.getD k 0) (k-1)
    (poly.set k (poly.getD k 0 ^^^ poly.getD (k-1) 0)) (by omega)
  have hslen : (sweep lam (poly.getD k 0)
      (poly.set k (poly.getD k 0 ^^^ poly.getD (k-1) 0)) (k-1)).length = poly.length := by
    rw [sweep_length, hlen1]
  show ((sweep lam _ (poly.set k _) (k-1)).set 0 _).getD j 0 = _
  by_cases hj0 : j = 0
  · subst hj0
    rw [if_pos rfl, getD_set_self _ _ _ (by omega), hs 0, if_neg (by omega),
      getD_set_ne _ _ _ _ (by omega)]
  · rw [if_neg hj0, getD_set_ne _ _ _ _ (by omega), hs j]
    by_cases hjk : j < k
    · rw [if_pos (by omega), if_pos hjk,
        getD_set_ne _ _ _ _ (by omega), getD_set_ne _ _ _ _ (by omega)]
    · rw [if_neg (by omega), if_neg hjk]
      by_cases hjk2 : j = k
      · subst hjk2
        rw [if_pos rfl, getD_set_self _ _ _ hklen]
      · rw [if_neg hjk2, getD_set_ne _ _ _ _ (by omega)]

/-! ### The product polynomial `∏ (X − rᵢ)` (specification side)

`polyMulXR p r` is the coefficient vector of `(X − r)·p` (`X + r` in
characteristic 2): coefficient `i` of the product is
`p[i-1] + r·p[i]`.  `prodPoly` folds the roots into the constant
polynomial 1, so it is the little-endian coefficient vector of the monic
product `∏ᵢ (X − rᵢ)` over the active field. -/

def addHead (c : Nat) : List Nat → List Nat
  | [] => [c]
  | h :: t => (c ^^^ h) :: t

def polyMulXR (lam : Nat) : List Nat → Nat → List Nat
  | [], _ => []
  | c :: q, r => GF2E_mul lam c r :: addHead c (polyMulXR lam q r)

def prodPoly (lam : Nat) (roots : List Nat) : List Nat :=
  roots.foldl (polyMulXR lam) [1]

theorem polyMulXR_length (lam : Nat) : ∀ (p : List Nat) (r : Nat), p ≠ [] →
    (polyMulXR lam p r).length = p.length + 1 := by
  intro p
  induction p with
  | nil => intro r h; exact absurd rfl h
  | cons c q ih =>
    intro r _
    cases q with
    | nil => rfl
    | cons d q' =>
      show (GF2E_mul lam c r :: addHead c (polyMulXR lam (d :: q') r)).length = _
      have h2 := ih r (by simp)
      cases hq : polyMulXR lam (d :: q') r with
      | nil => rw [hq] at h2; simp at h2
      | cons h0 t0 =>
        show (GF2E_mul lam c r :: (c ^^^ h0) :: t0).length = _
        have : (h0 :: t0).length = (d :: q').length + 1 := by rw [← hq, h2]
        simp at this ⊢
        omega

theorem polyMulXR_getD_zero (lam : Nat) (p : List Nat) (r : Nat) (hp : p ≠ []) :
    (polyMulXR lam p r).getD 0 0 = GF2E_mul lam (p.getD 0 0) r := by
  cases p with
  | nil => exact absurd rfl hp
  | cons c q => rfl

theorem polyMulXR_getD (lam : Nat) (h : lam ∈ lambdas) :
    ∀ (p : List Nat) (r : Nat) (j : Nat), p ≠ [] → 1 ≤ j →
    (polyMulXR lam p r).getD j 0
      = GF2E_mul lam (p.getD j 0) r ^^^ p.getD (j-1) 0 := by
  intro p
  induction p with
  | nil => intro r j hp; exact absurd rfl hp
  | cons c q ih =>
    intro r j _ hj
    cases q with
    | nil =>
      show ([GF2E_mul lam c r, c] : List Nat).getD j 0 = _
      rcases j with _ | _ | j2
      · omega
      · show c = GF2E_mul lam (([c] : List Nat).getD 1 0) r ^^^ c
        rw [getD_eq_zero_of_ge [c] 1 (by simp), GF2E_zero_mul lam h, Nat.zero_xor]
      · show (0:Nat) = GF2E_mul lam (([c] : List Nat).getD (j2+2) 0) r
          ^^^ ([c] : List Nat).getD (j2+1) 0
        rw [getD_eq_zero_of_ge [c] (j2+2) (by simp),
          getD_eq_zero_of_ge [c] (j2+1) (by simp), GF2E_zero_mul lam h, Nat.zero_xor]
    | cons d q' =>
      have hne : polyMulXR lam (d :: q') r ≠ [] := by
        intro hcontra
        have := polyMulXR_length lam (d :: q') r (by simp)
        rw [hcontra] at this
        simp at this
      cases hq : polyMulXR lam (d :: q') r with
      | nil => exact absurd hq hne
      | cons h0 t0 =>
        have hrw : polyMulXR lam (c :: d :: q') r
            = GF2E_mul lam c r :: (c ^^^ h0) :: t0 := by
          show GF2E_mul lam c r :: addHead c (polyMulXR lam (d :: q') r) = _
          rw [hq]
          rfl
        rw [hrw]
        rcases j with _ | _ | j2
        · omega
        · show c ^^^ h0 = GF2E_mul lam d r ^^^ c
          have h00 : h0 = GF2E_mul lam d r := by
            have h01 := polyMulXR_getD_zero lam (d :: q') r (by simp)
            rw [hq] at h01
            exact h01
          rw [h00, Nat.xor_comm]
        · have hih := ih r (j2+1) (by simp) (by omega)
          rw [hq] at hih
          show (h0 :: t0).getD (j2+1) 0 = _
          exact hih

theorem polyMulXR_bounded (lam : Nat) (h : lam ∈ lambdas) :
    ∀ (p : List Nat) (r : Nat), (∀ c ∈ p, c < 2 ^ widthOf lam) → r < 2 ^ widthOf lam →
    ∀ c ∈ polyMulXR lam p r, c < 2 ^ widthOf lam := by
  intro p
  induction p with
  | nil => intro r _ _ c hc; simp [polyMulXR] at hc
  | cons c q ih =>
    intro r hp hr e he
    have hc : c < 2 ^ widthOf lam := hp c (by simp)
    have hq : ∀ x ∈ polyMulXR lam q r, x < 2 ^ widthOf lam :=
      ih r (fun x hx => hp x (by simp [hx])) hr
    rcases List.mem_cons.mp he with rfl | he2
    · exact GF2E_mul_lt lam h c r hc hr
    · cases hpx : polyMulXR lam q r with
      | nil =>
        rw [hpx] at he2
        have he3 : e = c := by simpa [addHead] using he2
        subst he3
        exact hc
      | cons h0 t0 =>
        rw [hpx] at he2
        simp only [addHead] at he2
        rcases List.mem_cons.mp he2 with rfl | he3
        · exact Nat.xor_lt_two_pow hc (hq h0 (by rw [hpx]; simp))
        · exact hq e (by rw [hpx]; simp [he3])

theorem polyMulXR_ne_nil (lam : Nat) (p : List Nat) (r : Nat) (hp : p ≠ []) :
    polyMulXR lam p r ≠ [] := by
  apply List.length_pos.mp
  rw [polyMulXR_length lam p r hp]
  omega

theorem polyMulXR_getLast? (lam : Nat) :
    ∀ (p : List Nat) (r : Nat), p ≠ [] → (polyMulXR lam p r).getLast? = p.getLast? := by
  intro p
  induction p with
  | nil => intro r hp; exact absurd rfl hp
  | cons c q ih =>
    intro r _
    cases q with
    | nil => rfl
    | cons d q' =>
      have hne := polyMulXR_ne_nil lam (d :: q') r (by simp)
      cases hq : polyMulXR lam (d :: q') r with
      | nil => exact absurd hq hne
      | cons h0 t0 =>
        have ht0 : t0 ≠ [] := by
          intro hx
          have hl := polyMulXR_length lam (d :: q') r (by simp)
          rw [hq, hx] at hl
          simp at hl
        have hrw : polyMulXR lam (c :: d :: q') r
            = GF2E_mul lam c r :: (c ^^^ h0) :: t0 := by
          show GF2E_mul lam c r :: addHead c (polyMulXR lam (d :: q') r) = _
          rw [hq]
          rfl
        rw [hrw]
        have hih := ih r (by simp)
        rw [hq] at hih
        calc (GF2E_mul lam c r :: (c ^^^ h0) :: t0).getLast? = ((c ^^^ h0) :: t0).getLast? :=
              List.getLast?_cons_cons ..
          _ = (h0 :: t0).getLast? := by
              cases t0 with
              | nil => exact absurd rfl ht0
              | cons u v => rw [List.getLast?_cons_cons, List.getLast?_cons_cons]
          _ = (d :: q').getLast? := hih
          _ = (c :: d :: q').getLast? := (List.getLast?_cons_cons ..).symm

theorem prodFold_length (lam : Nat) :
    ∀ (rs p : List Nat), p ≠ [] →
      (rs.foldl (polyMulXR lam) p).length = p.length + rs.length
        ∧ rs.foldl (polyMulXR lam) p ≠ [] := by
  intro rs
  induction rs with
  | nil => intro p hp; exact ⟨by simp, hp⟩
  | cons r rs' ih =>
    intro p hp
    have hne := polyMulXR_ne_nil lam p r hp
    obtain ⟨h1, h2⟩ := ih (polyMulXR lam p r) hne
    refine ⟨?_, h2⟩
    show (rs'.foldl (polyMulXR lam) (polyMulXR lam p r)).length = _
    rw [h1, polyMulXR_length lam p r hp]
    simp
    omega

theorem prodFold_getLast? (lam : Nat) :
    ∀ (rs p : List Nat), p ≠ [] →
      (rs.foldl (polyMulXR lam) p).getLast? = p.getLast? := by
  intro rs
  induction rs with
  | nil => intro p _; rfl
  | cons r rs' ih =>
    intro p hp
    show (rs'.foldl (polyMulXR lam) (polyMulXR lam p r)).getLast? = _
    rw [ih _ (polyMulXR_ne_nil lam p r hp), polyMulXR_getLast? lam p r hp]

theorem prodFold_bounded (lam : Nat) (h : lam ∈ lambdas) :
    ∀ (rs p : List Nat), (∀ c ∈ p, c < 2 ^ widthOf lam) →
      (∀ x ∈ rs, x < 2 ^ widthOf lam) →
      ∀ c ∈ rs.foldl (polyMulXR lam) p, c < 2 ^ widthOf lam := by
  intro rs
  induction rs with
  | nil => intro p hp _; exact hp
  | cons r rs' ih =>
    intro p hp hrs
    exact ih (polyMulXR lam p r)
      (polyMulXR_bounded lam h p r hp (hrs r (by simp)))
      (fun x hx => hrs x (by simp [hx]))

theorem getD_dropLast (l : List Nat) (j : Nat) (hj : j < l.dropLast.length) :
    l.dropLast.getD j 0 = l.getD j 0 := by
  rw [getD_eq_getElem _ _ hj, getD_eq_getElem _ _ (by
    rw [List.length_dropLast] at hj
    omega)]
  simp

/-- One outer iteration of `build_from_roots`, acting on a state whose
first `k` entries are the low coefficients of the running monic product
and whose remaining entries start with the next root, multiplies the
running product by `(X − r)` in place and leaves the tail untouched. -/
theorem buildStep_transition (lam : Nat) (h : lam ∈ lambdas) (cs rest : List Nat) (r : Nat)
    (hcs : cs ≠ []) (hr : r < 2 ^ widthOf lam) :
    buildStep lam (cs ++ r :: rest) cs.length
      = (polyMulXR lam (cs ++ [1]) r).dropLast ++ rest := by
  have hk : 1 ≤ cs.length := List.length_pos.mpr hcs
  have hQlen : (polyMulXR lam (cs ++ [1]) r).length = cs.length + 2 := by
    rw [polyMulXR_length lam (cs ++ [1]) r (by simp)]
    simp
  have hQdrop : (polyMulXR lam (cs ++ [1]) r).dropLast.length = cs.length + 1 := by
    rw [List.length_dropLast, hQlen]
    omega
  have hplen : (cs ++ r :: rest).length = cs.length + 1 + rest.length := by
    simp
    omega
  have hgetk : (cs ++ r :: rest).getD cs.length 0 = r := by
    rw [getD_append_right' _ _ _ (le_refl _), Nat.sub_self]
    rfl
  have hgetlt : ∀ j, j < cs.length → (cs ++ r :: rest).getD j 0 = cs.getD j 0 :=
    fun j hj => getD_append_left' _ _ j hj
  have hgetgt : ∀ j, cs.length < j →
      (cs ++ r :: rest).getD j 0 = rest.getD (j - cs.length - 1) 0 := by
    intro j hj
    rw [getD_append_right' _ _ j (by omega)]
    have hj2 : j - cs.length = (j - cs.length - 1) + 1 := by omega
    rw [hj2]
    rfl
  have hq0 : (polyMulXR lam (cs ++ [1]) r).getD 0 0 = GF2E_mul lam (cs.getD 0 0) r := by
    rw [polyMulXR_getD_zero lam _ r (by simp), getD_append_left' _ _ 0 (by omega)]
  have hqj : ∀ j, 1 ≤ j → j < cs.length →
      (polyMulXR lam (cs ++ [1]) r).getD j 0
        = GF2E_mul lam (cs.getD j 0) r ^^^ cs.getD (j-1) 0 := by
    intro j h1 h2
    rw [polyMulXR_getD lam h _ r j (by simp) h1, getD_append_left' _ _ j h2,
      getD_append_left' _ _ (j-1) (by omega)]
  have hqk : (polyMulXR lam (cs ++ [1]) r).getD cs.length 0
      = r ^^^ cs.getD (cs.length - 1) 0 := by
    rw [polyMulXR_getD lam h _ r _ (by simp) hk]
    rw [getD_append_right' cs [1] cs.length (le_refl _), Nat.sub_self]
    show GF2E_mul lam 1 r ^^^ (cs ++ [1]).getD (cs.length - 1) 0 = _
    rw [GF2E_one_mul lam h r hr, getD_append_left' _ _ _ (by omega)]
  have hdrop : ∀ j, j < cs.length + 1 →
      (polyMulXR lam (cs ++ [1]) r).dropLast.getD j 0
        = (polyMulXR lam (cs ++ [1]) r).getD j 0 := by
    intro j hj
    exact getD_dropLast _ j (by rw [hQdrop]; omega)
  apply List.ext_getElem
  · rw [buildStep_length, hplen, List.length_append, hQdrop]
  · intro j h1 h2
    rw [← getD_eq_getElem _ _ h1, ← getD_eq_getElem _ _ h2]
    rw [buildStep_length, hplen] at h1
    rw [buildStep_getD lam _ cs.length hk (by omega)]
    by_cases hj0 : j = 0
    · subst hj0
      rw [if_pos rfl, hgetk, hgetlt 0 (by omega),
        getD_append_left' _ _ 0 (by omega), hdrop 0 (by omega), hq0]
    · rw [if_neg hj0]
      by_cases hjk : j < cs.length
      · rw [if_pos hjk, hgetk, hgetlt j hjk, hgetlt (j-1) (by omega),
          getD_append_left' _ _ j (by omega), hdrop j (by omega), hqj j (by omega) hjk]
      · by_cases hjke : j = cs.length
        · subst hjke
          rw [if_neg hjk, if_pos rfl, hgetk, hgetlt (cs.length - 1) (by omega),
            getD_append_left' _ _ _ (by omega), hdrop _ (by omega), hqk]
        · rw [if_neg hjk, if_neg hjke, hgetgt j (by omega),
            getD_append_right' _ _ j (by rw [hQdrop]; omega), hQdrop, Nat.sub_sub]

/-- Folding the outer loop over the remaining roots: the state stays
`low-coefficients ++ remaining roots ++ [0]`, with the low coefficients
tracking the spec-side product fold. -/
theorem build_fold (lam : Nat) (h : lam ∈ lambdas) :
    ∀ (rest cs : List Nat), cs ≠ [] → (∀ x ∈ rest, x < 2 ^ widthOf lam) →
    (List.range' cs.length rest.length).foldl (buildStep lam) (cs ++ rest ++ [0])
      = (rest.foldl (polyMulXR lam) (cs ++ [1])).dropLast ++ [0] := by
  intro rest
  induction rest with
  | nil =>
    intro cs hcs _
    simp only [List.length_nil, List.range'_zero, List.foldl_nil, List.dropLast_concat]
    simp
  | cons r rest' ih =>
    intro cs hcs hb
    have hr : r < 2 ^ widthOf lam := hb r (by simp)
    show (List.range' cs.length (rest'.length + 1)).foldl (buildStep lam) _ = _
    rw [List.range'_succ]
    show (List.range' (cs.length + 1) rest'.length).foldl (buildStep lam)
      (buildStep lam (cs ++ (r :: rest') ++ [0]) cs.length) = _
    have hassoc : cs ++ (r :: rest') ++ [0] = cs ++ r :: (rest' ++ [0]) := by simp
    rw [hassoc, buildStep_transition lam h cs (rest' ++ [0]) r hcs hr]
    have hQdrop : (polyMulXR lam (cs ++ [1]) r).dropLast.length = cs.length + 1 := by
      rw [List.length_dropLast, polyMulXR_length lam (cs ++ [1]) r (by simp)]
      simp
    have hcs' : (polyMulXR lam (cs ++ [1]) r).dropLast ≠ [] := by
      apply List.length_pos.mp
      rw [hQdrop]
      omega
    have hshape : (polyMulXR lam (cs ++ [1]) r).dropLast ++ (rest' ++ [0])
        = (polyMulXR lam (cs ++ [1]) r).dropLast ++ rest' ++ [0] := by simp
    rw [hshape, show cs.length + 1 = (polyMulXR lam (cs ++ [1]) r).dropLast.length
      from hQdrop.symm]
    rw [ih _ hcs' (fun x hx => hb x (by simp [hx]))]
    have hmon : (polyMulXR lam (cs ++ [1]) r).getLast? = some 1 := by
      rw [polyMulXR_getLast? lam _ r (by simp)]
      simp
    have hQcons : (polyMulXR lam (cs ++ [1]) r).dropLast ++ [1]
        = polyMulXR lam (cs ++ [1]) r :=
      List.dropLast_append_getLast? 1 hmon
    rw [hQcons]
    rfl

/-- `build_from_roots` computes exactly the coefficient vector of the
monic product `∏ (X − rᵢ)`. -/
theorem build_from_roots_eq (lam : Nat) (h : lam ∈ lambdas) (roots : List Nat)
    (hne : roots ≠ []) (hb : ∀ x ∈ roots, x < 2 ^ widthOf lam) :
    build_from_roots lam roots = prodPoly lam roots := by
  obtain ⟨r₀, rest, rfl⟩ := List.exists_cons_of_ne_nil hne
  have hr₀ : r₀ < 2 ^ widthOf lam := hb r₀ (by simp)
  show (((List.range (r₀ :: rest).length).drop 1).foldl (buildStep lam)
    ((r₀ :: rest) ++ [0])).set (r₀ :: rest).length 1 = _
  have hrange : (List.range (r₀ :: rest).length).drop 1 = List.range' 1 rest.length := by
    show (List.range (rest.length + 1)).drop 1 = _
    rw [List.range_eq_range', List.range'_succ]
    rfl
  rw [hrange]
  have hsplit : (r₀ :: rest) ++ [0] = [r₀] ++ rest ++ [0] := by simp
  rw [hsplit]
  rw [show List.range' 1 rest.length
    = List.range' ([r₀] : List Nat).length rest.length from rfl]
  rw [build_fold lam h rest [r₀] (by simp) (fun x hx => hb x (by simp [hx]))]
  rw [show ([r₀] ++ [1] : List Nat) = polyMulXR lam [1] r₀ from by
    show [r₀, 1] = [GF2E_mul lam 1 r₀, 1]
    rw [GF2E_one_mul lam h r₀ hr₀]]
  have hQne : polyMulXR lam [1] r₀ ≠ [] := polyMulXR_ne_nil lam [1] r₀ (by simp)
  obtain ⟨hflen, hfne⟩ := prodFold_length lam rest (polyMulXR lam [1] r₀) hQne
  have hdroplen : (rest.foldl (polyMulXR lam) (polyMulXR lam [1] r₀)).dropLast.length
      = rest.length + 1 := by
    rw [List.length_dropLast, hflen, polyMulXR_length lam [1] r₀ (by simp)]
    simp
    omega
  rw [List.set_append_right _ _ (by rw [hdroplen]; simp)]
  rw [hdroplen]
  have hidx : (r₀ :: rest).length - (rest.length + 1) = 0 := by simp
  rw [hidx]
  have hmon : (rest.foldl (polyMulXR lam) (polyMulXR lam [1] r₀)).getLast? = some 1 := by
    rw [prodFold_getLast? lam rest _ hQne, polyMulXR_getLast? lam [1] r₀ (by simp)]
    rfl
  show (rest.foldl (polyMulXR lam) (polyMulXR lam [1] r₀)).dropLast ++ [1] = _
  rw [List.dropLast_append_getLast? 1 hmon]
  rfl

/-! ### Horner evaluation and evaluation of the product polynomial -/

/-- Horner evaluation (`eval` in `field.cpp`): highest-degree coefficient
first, `acc = acc * point + poly[i]`, with the accumulator
default-initialized to the zero element. -/
def eval (lam : Nat) (poly : List Nat) (point : Nat) : Nat :=
  poly.foldr (fun c acc => GF2E_mul lam acc point ^^^ c) 0

theorem eval_nil (lam x : Nat) : eval lam [] x = 0 := rfl

theorem eval_cons (lam c x : Nat) (t : List Nat) :
    eval lam (c :: t) x = GF2E_mul lam (eval lam t x) x ^^^ c := rfl

theorem eval_lt (lam : Nat) (h : lam ∈ lambdas) :
    ∀ (p : List Nat), (∀ c ∈ p, c < 2 ^ widthOf lam) → ∀ x, x < 2 ^ widthOf lam →
      eval lam p x < 2 ^ widthOf lam := by
  intro p
  induction p with
  | nil => intro _ x _; exact Nat.two_pow_pos _
  | cons c t ih =>
    intro hp x hx
    rw [eval_cons]
    exact Nat.xor_lt_two_pow
      (GF2E_mul_lt lam h _ x (ih (fun e he => hp e (by simp [he])) x hx) hx)
      (hp c (by simp))

theorem one_lt_width (lam : Nat) (h : lam ∈ lambdas) : (1:Nat) < 2 ^ widthOf lam := by
  obtain ⟨hpos, -⟩ := width_facts lam h
  calc (1:Nat) < 2 ^ 1 := by norm_num
    _ ≤ 2 ^ widthOf lam := Nat.pow_le_pow_right (by norm_num) (by omega)

theorem eval_polyMulXR (lam : Nat) (h : lam ∈ lambdas) :
    ∀ (p : List Nat) (r x : Nat), (∀ c ∈ p, c < 2 ^ widthOf lam) →
      r < 2 ^ widthOf lam → x < 2 ^ widthOf lam →
      eval lam (polyMulXR lam p r) x = GF2E_mul lam (x ^^^ r) (eval lam p x) := by
  intro p
  induction p with
  | nil =>
    intro r x _ hr hx
    rw [show polyMulXR lam [] r = [] from rfl, eval_nil, GF2E_mul_zero lam h]
  | cons c q ih =>
    intro r x hp hr hx
    have hc : c < 2 ^ widthOf lam := hp c (by simp)
    cases q with
    | nil =>
      show eval lam [GF2E_mul lam c r, c] x = _
      rw [eval_cons, eval_cons, eval_nil, GF2E_zero_mul lam h, Nat.zero_xor]
      rw [GF2E_mul_comm lam (x ^^^ r) c, GF2E_mul_xor lam h c x r hc hx hr]
    | cons d q' =>
      have hne := polyMulXR_ne_nil lam (d :: q') r (by simp)
      have hq' : ∀ e ∈ (d :: q'), e < 2 ^ widthOf lam := fun e he => hp e (by simp [he])
      have hPXb : ∀ e ∈ polyMulXR lam (d :: q') r, e < 2 ^ widthOf lam :=
        polyMulXR_bounded lam h _ r hq' hr
      cases hq : polyMulXR lam (d :: q') r with
      | nil => exact absurd hq hne
      | cons h0 t0 =>
        have hrw : polyMulXR lam (c :: d :: q') r
            = GF2E_mul lam c r :: (c ^^^ h0) :: t0 := by
          show GF2E_mul lam c r :: addHead c (polyMulXR lam (d :: q') r) = _
          rw [hq]
          rfl
        rw [hrw, eval_cons, eval_cons]
        have ht0b : ∀ e ∈ t0, e < 2 ^ widthOf lam := by
          intro e he
          exact hPXb e (by rw [hq]; simp [he])
        have hh0 : h0 < 2 ^ widthOf lam := hPXb h0 (by rw [hq]; simp)
        have hE : eval lam t0 x < 2 ^ widthOf lam := eval_lt lam h t0 ht0b x hx
        have hA : GF2E_mul lam (eval lam t0 x) x < 2 ^ widthOf lam :=
          GF2E_mul_lt lam h _ _ hE hx
        have hEq : eval lam (d :: q') x < 2 ^ widthOf lam := eval_lt lam h _ hq' x hx
        have hxr : x ^^^ r < 2 ^ widthOf lam := Nat.xor_lt_two_pow hx hr
        have hstep1 : GF2E_mul lam (eval lam t0 x) x ^^^ (c ^^^ h0)
            = (GF2E_mul lam (eval lam t0 x) x ^^^ h0) ^^^ c := by
          simp [Nat.xor_assoc, xor_left_comm, Nat.xor_comm]
        rw [hstep1]
        have hPX : GF2E_mul lam (eval lam t0 x) x ^^^ h0
            = GF2E_mul lam (x ^^^ r) (eval lam (d :: q') x) := by
          have hih := ih r x hq' hr hx
          rw [hq] at hih
          rw [← hih]
          rfl
        rw [hPX]
        rw [GF2E_xor_mul lam h _ c x (GF2E_mul_lt lam h _ _ hxr hEq) hc hx]
        rw [GF2E_mul_assoc lam h (x ^^^ r) (eval lam (d :: q') x) x hxr hEq hx]
        rw [show eval lam (c :: d :: q') x
          = GF2E_mul lam (eval lam (d :: q') x) x ^^^ c from rfl]
        rw [GF2E_mul_xor lam h (x ^^^ r) _ c hxr (GF2E_mul_lt lam h _ _ hEq hx) hc]
        have hlast : GF2E_mul lam c x ^^^ GF2E_mul lam c r = GF2E_mul lam (x ^^^ r) c := by
          rw [GF2E_mul_comm lam (x ^^^ r) c, GF2E_mul_xor lam h c x r hc hx hr]
        rw [← hlast, Nat.xor_assoc]

theorem mulFold_lt (lam : Nat) (h : lam ∈ lambdas) (x : Nat) (hx : x < 2 ^ widthOf lam) :
    ∀ (rs : List Nat) (a : Nat), a < 2 ^ widthOf lam → (∀ r ∈ rs, r < 2 ^ widthOf lam) →
      rs.foldl (fun acc r => GF2E_mul lam acc (x ^^^ r)) a < 2 ^ widthOf lam := by
  intro rs
  induction rs with
  | nil => intro a ha _; exact ha
  | cons r rs' ih =>
    intro a ha hrs
    show rs'.foldl _ (GF2E_mul lam a (x ^^^ r)) < _
    exact ih _ (GF2E_mul_lt lam h _ _ ha (Nat.xor_lt_two_pow hx (hrs r (by simp))))
      (fun e he => hrs e (by simp [he]))

theorem mulFold_mul (lam : Nat) (h : lam ∈ lambdas) (x : Nat) (hx : x < 2 ^ widthOf lam) :
    ∀ (rs : List Nat) (a b : Nat), a < 2 ^ widthOf lam → b < 2 ^ widthOf lam →
      (∀ r ∈ rs, r < 2 ^ widthOf lam) →
      rs.foldl (fun acc r => GF2E_mul lam acc (x ^^^ r)) (GF2E_mul lam a b)
        = GF2E_mul lam a (rs.foldl (fun acc r => GF2E_mul lam acc (x ^^^ r)) b) := by
  intro rs
  induction rs with
  | nil => intro a b _ _ _; rfl
  | cons r rs' ih =>
    intro a b ha hb hrs
    have hr : x ^^^ r < 2 ^ widthOf lam := Nat.xor_lt_two_pow hx (hrs r (by simp))
    show rs'.foldl _ (GF2E_mul lam (GF2E_mul lam a b) (x ^^^ r)) = _
    rw [GF2E_mul_assoc lam h a b (x ^^^ r) ha hb hr]
    rw [ih a (GF2E_mul lam b (x ^^^ r)) ha (GF2E_mul_lt lam h _ _ hb hr)
      (fun e he => hrs e (by simp [he]))]
    rfl

theorem eval_prodFold (lam : Nat) (h : lam ∈ lambdas) :
    ∀ (rs p : List Nat) (x : Nat), (∀ c ∈ p, c < 2 ^ widthOf lam) →
      (∀ r ∈ rs, r < 2 ^ widthOf lam) → x < 2 ^ widthOf lam →
      eval lam (rs.foldl (polyMulXR lam) p) x
        = GF2E_mul lam (rs.foldl (fun acc r => GF2E_mul lam acc (x ^^^ r)) 1)
            (eval lam p x) := by
  intro rs
  induction rs with
  | nil =>
    intro p x hp _ hx
    show eval lam p x = GF2E_mul lam 1 (eval lam p x)
    rw [GF2E_one_mul lam h _ (eval_lt lam h p hp x hx)]
  | cons r rs' ih =>
    intro p x hp hrs hx
    have hr : r < 2 ^ widthOf lam := hrs r (by simp)
    have hxr : x ^^^ r < 2 ^ widthOf lam := Nat.xor_lt_two_pow hx hr
    show eval lam (rs'.foldl (polyMulXR lam) (polyMulXR lam p r)) x = _
    rw [ih (polyMulXR lam p r) x (polyMulXR_bounded lam h p r hp hr)
      (fun e he => hrs e (by simp [he])) hx]
    rw [eval_polyMulXR lam h p r x hp hr hx]
    show _ = GF2E_mul lam (rs'.foldl _ (GF2E_mul lam 1 (x ^^^ r))) (eval lam p x)
    rw [GF2E_one_mul lam h _ hxr]
    have hfold : rs'.foldl (fun acc r => GF2E_mul lam acc (x ^^^ r)) (x ^^^ r)
        = GF2E_mul lam (x ^^^ r)
            (rs'.foldl (fun acc r => GF2E_mul lam acc (x ^^^ r)) 1) := by
      conv_lhs => rw [show x ^^^ r = GF2E_mul lam (x ^^^ r) 1
        from (GF2E_mul_one lam h _ hxr).symm]
      exact mulFold_mul lam h x hx rs' (x ^^^ r) 1 hxr (one_lt_width lam h)
        (fun e he => hrs e (by simp [he]))
    rw [hfold]
    have hpi : rs'.foldl (fun acc r => GF2E_mul lam acc (x ^^^ r)) 1 < 2 ^ widthOf lam :=
      mulFold_lt lam h x hx rs' 1 (one_lt_width lam h) (fun e he => hrs e (by simp [he]))
    have hev : eval lam p x < 2 ^ widthOf lam := eval_lt lam h p hp x hx
    rw [← GF2E_mul_assoc lam h _ (x ^^^ r) _ hpi hxr hev,
      GF2E_mul_comm lam (rs'.foldl (fun acc r => GF2E_mul lam acc (x ^^^ r)) 1) (x ^^^ r),
      GF2E_mul_assoc lam h (x ^^^ r) _ _ hxr hpi hev]

theorem mulFold_zero_init (lam : Nat) (h : lam ∈ lambdas) (x : Nat) :
    ∀ (rs : List Nat), rs.foldl (fun acc r => GF2E_mul lam acc (x ^^^ r)) 0 = 0 := by
  intro rs
  induction rs with
  | nil => rfl
  | cons r rs' ih =>
    show rs'.foldl _ (GF2E_mul lam 0 (x ^^^ r)) = 0
    rw [GF2E_zero_mul lam h]
    exact ih

theorem mulFold_root (lam : Nat) (h : lam ∈ lambdas) (x : Nat) :
    ∀ (rs : List Nat) (a : Nat), x ∈ rs →
      rs.foldl (fun acc r => GF2E_mul lam acc (x ^^^ r)) a = 0 := by
  intro rs
  induction rs with
  | nil => intro a hx; simp at hx
  | cons r rs' ih =>
    intro a hx
    rcases List.mem_cons.mp hx with rfl | hx2
    · show rs'.foldl _ (GF2E_mul lam a (x ^^^ x)) = 0
      rw [Nat.xor_self, GF2E_mul_zero lam h]
      exact mulFold_zero_init lam h x rs'
    · exact ih _ hx2

/-- C4: for every non-empty list of roots, `build_from_roots` returns
exactly the little-endian coefficient vector of the monic degree-m
product `∏ᵢ (X − rᵢ)` over the active field: it has length `m+1`, its
last coefficient is 1, and Horner evaluation at each root yields the
zero element. -/
theorem claim_C4 (lam : Nat) (hlam : lam ∈ lambdas) (roots : List Nat) (hne : roots ≠ [])
    (hb : ∀ x ∈ roots, x < 2 ^ widthOf lam) :
    build_from_roots lam roots = prodPoly lam roots ∧
    (build_from_roots lam roots).length = roots.length + 1 ∧
    (build_from_roots lam roots).getLast? = some 1 ∧
    ∀ r ∈ roots, eval lam (build_from_roots lam roots) r = 0 := by
  have heq := build_from_roots_eq lam hlam roots hne hb
  have hone : ∀ c ∈ ([1] : List Nat), c < 2 ^ widthOf lam := by
    intro c hc
    simp at hc
    subst hc
    exact one_lt_width lam hlam
  refine ⟨heq, ?_, ?_, ?_⟩
  · rw [heq]
    obtain ⟨hl, -⟩ := prodFold_length lam roots [1] (by simp)
    rw [prodPoly, hl]
    simp [Nat.add_comm]
  · rw [heq, prodPoly, prodFold_getLast? lam roots [1] (by simp)]
    rfl
  · intro r hr
    rw [heq, prodPoly, eval_prodFold lam hlam roots [1] r hone hb (hb r hr)]
    rw [mulFold_root lam hlam r roots 1 hr]
    exact GF2E_zero_mul lam hlam _

theorem claim_C4_witness :
    (4 ∈ lambdas ∧ ([2, 3] : List Nat) ≠ [] ∧ (∀ x ∈ ([2, 3] : List Nat), x < 2 ^ widthOf 4)) ∧
    (build_from_roots 4 [2, 3] = prodPoly 4 [2, 3] ∧
      (build_from_roots 4 [2, 3]).length = ([2, 3] : List Nat).length + 1 ∧
      (build_from_roots 4 [2, 3]).getLast? = some 1 ∧
      ∀ r ∈ ([2, 3] : List Nat), eval 4 (build_from_roots 4 [2, 3]) r = 0) :=
  ⟨⟨by decide, by decide, by decide⟩,
    claim_C4 4 (by decide) [2, 3] (by decide) (by decide)⟩

/-! ### Lagrange precomputation and interpolation -/

/-- Modelled from the spec: the NTL call
`utils::ntl_to_custom(inv(utils::custom_to_ntl(denominator)))` (the
`utils` and NTL sources are not part of the inspected tree) computes the
multiplicative inverse in GF(2^lambda); it is modelled as Fermat
exponentiation to `2^width − 2` by binary square-and-multiply over the
embedded field multiplication. -/
def powF (lam : Nat) : Nat → Nat → Nat → Nat
  | 0, _, _ => 1
  | f+1, a, e =>
    if e = 0 then 1
    else if e % 2 = 1 then GF2E_mul lam (powF lam f (GF2E_mul lam a a) (e / 2)) a
    else powF lam f (GF2E_mul lam a a) (e / 2)

/-- Modelled from the spec: the NTL field inverse, as Fermat
exponentiation. -/
def ntl_inv (lam a : Nat) : Nat := powF lam (widthOf lam) a (2 ^ widthOf lam - 2)

/-- The `denominator` accumulator of `precompute_lagrange_polynomials`:
the running product over `j ≠ k` of `x_values[k] - x_values[j]`
(subtraction in GF(2^lambda) being XOR). -/
def lagrange_denom (lam : Nat) (xs : List Nat) (k : Nat) : Nat :=
  (List.range xs.length).foldl
    (fun d j => if k ≠ j then GF2E_mul lam d (xs.getD k 0 ^^^ xs.getD j 0) else d) 1

/-- The `x_except_k` vector of `precompute_lagrange_polynomials`: the
x-values pushed in order with index `k` skipped. -/
def x_except (xs : List Nat) (k : Nat) : List Nat :=
  (List.range xs.length).foldl
    (fun acc j => if k ≠ j then acc ++ [xs.getD j 0] else acc) []

/-- `precompute_lagrange_polynomials` from `field.cpp`: for each `k` the
monic numerator `build_from_roots(x_except_k)` scaled by the inverse of
the accumulated denominator. -/
def precompute_lagrange_polynomials (lam : Nat) (xs : List Nat) : List (List Nat) :=
  (List.range xs.length).map (fun k =>
    vec_scalar_mul lam (build_from_roots lam (x_except xs k))
      (ntl_inv lam (lagrange_denom lam xs k)))

theorem powF_lt (lam : Nat) (h : lam ∈ lambdas) :
    ∀ (f a e : Nat), a < 2 ^ widthOf lam → powF lam f a e < 2 ^ widthOf lam := by
  intro f
  induction f with
  | zero => intro a e _; exact one_lt_width lam h
  | succ f' ih =>
    intro a e ha
    rw [powF]
    by_cases he : e = 0
    · rw [if_pos he]
      exact one_lt_width lam h
    · rw [if_neg he]
      have hs := ih (GF2E_mul lam a a) (e / 2) (GF2E_mul_lt lam h a a ha ha)
      by_cases hp : e % 2 = 1
      · rw [if_pos hp]
        exact GF2E_mul_lt lam h _ a hs ha
      · rw [if_neg hp]
        exact hs

theorem ntl_inv_lt (lam : Nat) (h : lam ∈ lambdas) (a : Nat) (ha : a < 2 ^ widthOf lam) :
    ntl_inv lam a < 2 ^ widthOf lam :=
  powF_lt lam h (widthOf lam) a (2 ^ widthOf lam - 2) ha

theorem getD_bound (w : Nat) (xs : List Nat) (hxb : ∀ x ∈ xs, x < 2 ^ w) (j : Nat) :
    xs.getD j 0 < 2 ^ w := by
  rcases Nat.lt_or_ge j xs.length with hj | hj
  · rw [getD_eq_getElem xs j hj]
    exact hxb _ (List.getElem_mem hj)
  · rw [getD_eq_zero_of_ge xs j hj]
    exact Nat.two_pow_pos w

theorem denomFold_lt (lam : Nat) (h : lam ∈ lambdas) (xs : List Nat)
    (hxb : ∀ x ∈ xs, x < 2 ^ widthOf lam) (k : Nat) :
    ∀ (idxs : List Nat) (d : Nat), d < 2 ^ widthOf lam →
      idxs.foldl
        (fun d j => if k ≠ j then GF2E_mul lam d (xs.getD k 0 ^^^ xs.getD j 0) else d) d
        < 2 ^ widthOf lam := by
  intro idxs
  induction idxs with
  | nil => intro d hd; exact hd
  | cons j rest ih =>
    intro d hd
    rw [List.foldl_cons]
    by_cases hkj : k = j
    · rw [if_neg (not_not_intro hkj)]
      exact ih d hd
    · rw [if_pos hkj]
      exact ih _ (GF2E_mul_lt lam h _ _ hd
        (Nat.xor_lt_two_pow (getD_bound _ xs hxb k) (getD_bound _ xs hxb j)))

theorem lagrange_denom_lt (lam : Nat) (h : lam ∈ lambdas) (xs : List Nat)
    (hxb : ∀ x ∈ xs, x < 2 ^ widthOf lam) (k : Nat) :
    lagrange_denom lam xs k < 2 ^ widthOf lam :=
  denomFold_lt lam h xs hxb k (List.range xs.length) 1 (one_lt_width lam h)

/-! Generic facts about the push-all-but-one fold shape shared by
`x_except` and `lagrange_denom`. -/

theorem skipPush_foldl (v : Nat → Nat) (g : Nat → Nat → Nat) (k : Nat) :
    ∀ (idxs L : List Nat) (d : Nat),
      (idxs.foldl (fun acc j => if k ≠ j then acc ++ [v j] else acc) L).foldl g d
        = idxs.foldl (fun e j => if k ≠ j then g e (v j) else e) (L.foldl g d) := by
  intro idxs
  induction idxs with
  | nil => intro L d; rfl
  | cons j rest ih =>
    intro L d
    rw [List.foldl_cons, List.foldl_cons]
    by_cases hkj : k = j
    · rw [if_neg (not_not_intro hkj), if_neg (not_not_intro hkj)]
      exact ih L d
    · rw [if_pos hkj, if_pos hkj, ih (L ++ [v j]) d, List.foldl_append]
      rfl

theorem skipPush_length (v : Nat → Nat) (k : Nat) :
    ∀ (idxs L : List Nat),
      (idxs.foldl (fun acc j => if k ≠ j then acc ++ [v j] else acc) L).length
          + idxs.count k
        = L.length + idxs.length := by
  intro idxs
  induction idxs with
  | nil => intro L; simp
  | cons j rest ih =>
    intro L
    rw [List.foldl_cons]
    by_cases hkj : k = j
    · subst hkj
      rw [if_neg (not_not_intro rfl), List.count_cons_self]
      have h2 := ih L
      simp only [List.length_cons]
      omega
    · rw [if_pos hkj, List.count_cons_of_ne hkj]
      have h2 := ih (L ++ [v j])
      rw [List.length_append] at h2
      simp only [List.length_cons, List.length_nil] at h2 ⊢
      omega

theorem skipPush_mem_mono (v : Nat → Nat) (k : Nat) :
    ∀ (idxs L : List Nat) (e : Nat), e ∈ L →
      e ∈ idxs.foldl (fun acc j => if k ≠ j then acc ++ [v j] else acc) L := by
  intro idxs
  induction idxs with
  | nil => intro L e he; exact he
  | cons j rest ih =>
    intro L e he
    rw [List.foldl_cons]
    by_cases hkj : k = j
    · rw [if_neg (not_not_intro hkj)]
      exact ih L e he
    · rw [if_pos hkj]
      exact ih _ e (by simp [he])

theorem skipPush_mem (v : Nat → Nat) (k : Nat) :
    ∀ (idxs L : List Nat) (j : Nat), j ∈ idxs → j ≠ k →
      v j ∈ idxs.foldl (fun acc i => if k ≠ i then acc ++ [v i] else acc) L := by
  intro idxs
  induction idxs with
  | nil => intro L j hj _; simp at hj
  | cons i rest ih =>
    intro L j hj hjk
    rw [List.foldl_cons]
    rcases List.mem_cons.mp hj with rfl | hj2
    · rw [if_pos (Ne.symm hjk)]
      exact skipPush_mem_mono v k rest (L ++ [v j]) (v j) (by simp)
    · by_cases hki : k = i
      · rw [if_neg (not_not_intro hki)]
        exact ih L j hj2 hjk
      · rw [if_pos hki]
        exact ih _ j hj2 hjk

theorem skipPush_subset (v : Nat → Nat) (k : Nat) :
    ∀ (idxs L : List Nat) (e : Nat),
      e ∈ idxs.foldl (fun acc j => if k ≠ j then acc ++ [v j] else acc) L →
      e ∈ L ∨ ∃ j, j ∈ idxs ∧ e = v j := by
  intro idxs
  induction idxs with
  | nil => intro L e he; exact Or.inl he
  | cons j rest ih =>
    intro L e he
    rw [List.foldl_cons] at he
    by_cases hkj : k = j
    · rw [if_neg (not_not_intro hkj)] at he
      rcases ih L e he with h1 | ⟨i, hi, hee⟩
      · exact Or.inl h1
      · exact Or.inr ⟨i, by simp [hi], hee⟩
    · rw [if_pos hkj] at he
      rcases ih (L ++ [v j]) e he with h1 | ⟨i, hi, hee⟩
      · rcases List.mem_append.mp h1 with h2 | h2
        · exact Or.inl h2
        · exact Or.inr ⟨j, by simp, by simpa using h2⟩
      · exact Or.inr ⟨i, by simp [hi], hee⟩

theorem count_range_eq (k : Nat) :
    ∀ (n : Nat), (List.range n).count k = if k < n then 1 else 0 := by
  intro n
  induction n with
  | zero => simp
  | succ m ih =>
    rw [List.range_succ, List.count_append, ih]
    by_cases hkm : k = m
    · subst hkm
      rw [if_neg (Nat.lt_irrefl k), if_pos (Nat.lt_succ_self k)]
      simp
    · have h1 : List.count k [m] = 0 := by
        simp [List.count_cons, hkm]
      rw [h1]
      by_cases h2 : k < m
      · rw [if_pos h2, if_pos (by omega)]
      · rw [if_neg h2, if_neg (by omega)]

theorem x_except_length (xs : List Nat) (k : Nat) (hk : k < xs.length) :
    (x_except xs k).length = xs.length - 1 := by
  have h1 := skipPush_length (fun j => xs.getD j 0) k (List.range xs.length) []
  rw [count_range_eq k xs.length, if_pos hk] at h1
  simp only [List.length_nil, List.length_range] at h1
  rw [x_except]
  omega

theorem x_except_mem (xs : List Nat) (k j : Nat) (hj : j < xs.length) (hjk : j ≠ k) :
    xs.getD j 0 ∈ x_except xs k :=
  skipPush_mem (fun j => xs.getD j 0) k (List.range xs.length) [] j
    (List.mem_range.mpr hj) hjk

theorem x_except_bounded (xs : List Nat) (k w : Nat)
    (hxb : ∀ x ∈ xs, x < 2 ^ w) : ∀ e ∈ x_except xs k, e < 2 ^ w := by
  intro e he
  rcases skipPush_subset (fun j => xs.getD j 0) k (List.range xs.length) [] e he with
    h1 | ⟨j, -, rfl⟩
  · simp at h1
  · exact getD_bound w xs hxb j

theorem foldl_buildStep_length (lam : Nat) :
    ∀ (ks init : List Nat), (ks.foldl (buildStep lam) init).length = init.length := by
  intro ks
  induction ks with
  | nil => intro init; rfl
  | cons k rest ih =>
    intro init
    rw [List.foldl_cons, ih, buildStep_length]

theorem build_from_roots_length (lam : Nat) (roots : List Nat) :
    (build_from_roots lam roots).length = roots.length + 1 := by
  show ((((List.range roots.length).drop 1).foldl (buildStep lam) (roots ++ [0])).set
    roots.length 1).length = _
  rw [List.length_set, foldl_buildStep_length]
  simp

theorem build_from_roots_bounded (lam : Nat) (h : lam ∈ lambdas) (roots : List Nat)
    (hb : ∀ x ∈ roots, x < 2 ^ widthOf lam) :
    ∀ c ∈ build_from_roots lam roots, c < 2 ^ widthOf lam := by
  cases roots with
  | nil =>
    intro c hc
    rw [show build_from_roots lam [] = [1] from rfl] at hc
    simp at hc
    subst hc
    exact one_lt_width lam h
  | cons r rest =>
    intro c hc
    rw [build_from_roots_eq lam h (r :: rest) (by simp) hb] at hc
    exact prodFold_bounded lam h (r :: rest) [1]
      (fun e he => by simp at he; subst he; exact one_lt_width lam h) hb c hc

/-- Horner evaluation of `build_from_roots` at an arbitrary point is the
field product of the linear factors `point − root`. -/
theorem build_eval (lam : Nat) (h : lam ∈ lambdas) (roots : List Nat)
    (hb : ∀ x ∈ roots, x < 2 ^ widthOf lam) (x : Nat) (hx : x < 2 ^ widthOf lam) :
    eval lam (build_from_roots lam roots) x
      = roots.foldl (fun acc r => GF2E_mul lam acc (x ^^^ r)) 1 := by
  have heval1 : eval lam [1] x = 1 := by
    rw [eval_cons, eval_nil, GF2E_zero_mul lam h, Nat.zero_xor]
  cases roots with
  | nil =>
    rw [show build_from_roots lam [] = [1] from rfl, heval1]
    rfl
  | cons r rest =>
    rw [build_from_roots_eq lam h (r :: rest) (by simp) hb]
    rw [show prodPoly lam (r :: rest) = (r :: rest).foldl (polyMulXR lam) [1] from rfl]
    rw [eval_prodFold lam h (r :: rest) [1] x
      (fun e he => by simp at he; subst he; exact one_lt_width lam h) hb hx, heval1]
    exact GF2E_mul_one lam h _
      (mulFold_lt lam h x hx (r :: rest) 1 (one_lt_width lam h) hb)

/-! Linearity of Horner evaluation over vector sums and scalar
multiples. -/

theorem eval_zipWith_xor (lam : Nat) (h : lam ∈ lambdas) :
    ∀ (u v : List Nat) (x : Nat), u.length = v.length →
      (∀ c ∈ u, c < 2 ^ widthOf lam) → (∀ c ∈ v, c < 2 ^ widthOf lam) →
      x < 2 ^ widthOf lam →
      eval lam (List.zipWith (· ^^^ ·) u v) x = eval lam u x ^^^ eval lam v x := by
  intro u
  induction u with
  | nil =>
    intro v x hlen _ _ _
    rw [List.eq_nil_of_length_eq_zero hlen.symm]
    simp [eval_nil]
  | cons c u' ih =>
    intro v x hlen hu hv hx
    cases v with
    | nil => simp at hlen
    | cons d v' =>
      rw [show List.zipWith (· ^^^ ·) (c :: u') (d :: v')
        = (c ^^^ d) :: List.zipWith (· ^^^ ·) u' v' from rfl]
      rw [eval_cons, eval_cons, eval_cons]
      rw [ih v' x (by simpa using hlen) (fun e he => hu e (by simp [he]))
        (fun e he => hv e (by simp [he])) hx]
      rw [GF2E_xor_mul lam h _ _ x
        (eval_lt lam h u' (fun e he => hu e (by simp [he])) x hx)
        (eval_lt lam h v' (fun e he => hv e (by simp [he])) x hx) hx]
      simp [Nat.xor_assoc, xor_left_comm, Nat.xor_comm]

theorem eval_scalar (lam : Nat) (h : lam ∈ lambdas) :
    ∀ (p : List Nat) (s x : Nat), (∀ c ∈ p, c < 2 ^ widthOf lam) →
      s < 2 ^ widthOf lam → x < 2 ^ widthOf lam →
      eval lam (vec_scalar_mul lam p s) x = GF2E_mul lam s (eval lam p x) := by
  intro p
  induction p with
  | nil =>
    intro s x _ hs hx
    rw [show vec_scalar_mul lam [] s = [] from rfl, eval_nil, GF2E_mul_zero lam h]
  | cons c t ih =>
    intro s x hp hs hx
    rw [show vec_scalar_mul lam (c :: t) s
      = GF2E_mul lam c s :: vec_scalar_mul lam t s from rfl]
    rw [eval_cons, eval_cons]
    rw [ih s x (fun e he => hp e (by simp [he])) hs hx]
    have hEt : eval lam t x < 2 ^ widthOf lam :=
      eval_lt lam h t (fun e he => hp e (by simp [he])) x hx
    have hc : c < 2 ^ widthOf lam := hp c (by simp)
    rw [GF2E_mul_assoc lam h s _ x hs hEt hx]
    rw [GF2E_mul_comm lam c s]
    rw [← GF2E_mul_xor lam h s _ c hs (GF2E_mul_lt lam h _ _ hEt hx) hc]

theorem eval_replicate_zero (lam : Nat) (h : lam ∈ lambdas) :
    ∀ (n x : Nat), eval lam (List.replicate n 0) x = 0 := by
  intro n
  induction n with
  | zero => intro x; rfl
  | succ m ih =>
    intro x
    rw [List.replicate_succ, eval_cons, ih, GF2E_zero_mul lam h, Nat.zero_xor]

/-- Evaluating the accumulated sum of the interpolation loop: a
successful run of the `res += pre[k] * y[k]` fold evaluates to the
XOR-sum of the evaluations of its scaled summands. -/
theorem foldlM_eval (lam : Nat) (h : lam ∈ lambdas) (x : Nat) (hx : x < 2 ^ widthOf lam) :
    ∀ (L : List (List Nat × Nat)) (acc res : List Nat),
      (∀ c ∈ acc, c < 2 ^ widthOf lam) →
      (∀ py ∈ L, py.1.length = acc.length ∧ (∀ c ∈ py.1, c < 2 ^ widthOf lam)
        ∧ py.2 < 2 ^ widthOf lam) →
      L.foldlM (fun r py => vec_add r (vec_scalar_mul lam py.1 py.2)) acc = .ok res →
      eval lam res x
        = L.foldl (fun e py => e ^^^ GF2E_mul lam py.2 (eval lam py.1 x))
            (eval lam acc x) := by
  intro L
  induction L with
  | nil =>
    intro acc res _ _ hfold
    rw [List.foldlM_nil] at hfold
    injection hfold with hh
    subst hh
    rfl
  | cons py t ih =>
    intro acc res hacc hmem hfold
    obtain ⟨hlen, hpb, hyb⟩ := hmem py (by simp)
    have hsb : ∀ c ∈ vec_scalar_mul lam py.1 py.2, c < 2 ^ widthOf lam := by
      intro c hc
      rw [vec_scalar_mul] at hc
      obtain ⟨e, he, hec⟩ := List.mem_map.mp hc
      rw [← hec]
      exact GF2E_mul_lt lam h e py.2 (hpb e he) hyb
    have hslen : (vec_scalar_mul lam py.1 py.2).length = acc.length := by
      rw [vec_scalar_mul, List.length_map, hlen]
    have hadd : vec_add acc (vec_scalar_mul lam py.1 py.2)
        = .ok (List.zipWith (· ^^^ ·) acc (vec_scalar_mul lam py.1 py.2)) := by
      rw [vec_add, if_neg (by rw [hslen]; exact fun hh => hh rfl)]
    rw [List.foldlM_cons, hadd] at hfold
    have hfold2 : t.foldlM (fun r py => vec_add r (vec_scalar_mul lam py.1 py.2))
        (List.zipWith (· ^^^ ·) acc (vec_scalar_mul lam py.1 py.2)) = .ok res := hfold
    have haccb' : ∀ c ∈ List.zipWith (· ^^^ ·) acc (vec_scalar_mul lam py.1 py.2),
        c < 2 ^ widthOf lam := by
      intro c hc
      rw [zipWith_eq_map_zip] at hc
      obtain ⟨p, hp, hpc⟩ := List.mem_map.mp hc
      obtain ⟨hp1, hp2⟩ := List.of_mem_zip hp
      rw [← hpc]
      exact Nat.xor_lt_two_pow (hacc p.1 hp1) (hsb p.2 hp2)
    have hlen' : (List.zipWith (· ^^^ ·) acc (vec_scalar_mul lam py.1 py.2)).length
        = acc.length := by
      rw [List.length_zipWith, hslen]
      exact Nat.min_self _
    have heval' : eval lam (List.zipWith (· ^^^ ·) acc (vec_scalar_mul lam py.1 py.2)) x
        = eval lam acc x ^^^ GF2E_mul lam py.2 (eval lam py.1 x) := by
      rw [eval_zipWith_xor lam h acc (vec_scalar_mul lam py.1 py.2) x hslen.symm
        hacc hsb hx]
      rw [eval_scalar lam h py.1 py.2 x hpb hyb hx]
    rw [List.foldl_cons, ← heval']
    exact ih _ res haccb'
      (fun q hq => by
        obtain ⟨hq1, hq2, hq3⟩ := hmem q (by simp [hq])
        exact ⟨by rw [hq1, hlen'], hq2, hq3⟩) hfold2

theorem foldl_xor_all_zero (t : Nat → Nat) :
    ∀ (L : List Nat) (acc : Nat), (∀ j ∈ L, t j = 0) →
      L.foldl (fun e j => e ^^^ t j) acc = acc := by
  intro L
  induction L with
  | nil => intro acc _; rfl
  | cons j rest ih =>
    intro acc hz
    rw [List.foldl_cons, hz j (by simp), Nat.xor_zero]
    exact ih acc (fun i hi => hz i (by simp [hi]))

theorem foldl_xor_single (t : Nat → Nat) (k : Nat) :
    ∀ (L : List Nat) (acc : Nat), L.Nodup → (∀ j ∈ L, j ≠ k → t j = 0) → k ∈ L →
      L.foldl (fun e j => e ^^^ t j) acc = acc ^^^ t k := by
  intro L
  induction L with
  | nil => intro acc _ _ hk; simp at hk
  | cons j rest ih =>
    intro acc hnd hz hk
    rw [List.foldl_cons]
    rcases List.mem_cons.mp hk with rfl | hk2
    · have hknotin : k ∉ rest := (List.nodup_cons.mp hnd).1
      exact foldl_xor_all_zero t rest _
        (fun i hi => hz i (by simp [hi]) (fun hik => absurd (hik ▸ hi) hknotin))
    · by_cases hjk : j = k
      · subst hjk
        exact absurd hk2 (List.nodup_cons.mp hnd).1
      · rw [hz j (by simp) hjk, Nat.xor_zero]
        exact ih acc (List.nodup_cons.mp hnd).2
          (fun i hi hik => hz i (by simp [hi]) hik) hk2

theorem zip_map_range (basis : Nat → List Nat) (ys : List Nat) (m : Nat)
    (hm : ys.length = m) :
    List.zip ((List.range m).map basis) ys
      = (List.range m).map (fun j => (basis j, ys.getD j 0)) := by
  apply List.ext_getElem
  · rw [List.length_zip, List.length_map, List.length_range, List.length_map,
      List.length_range, hm]
    exact Nat.min_self m
  · intro i h1 h2
    have him : i < m := by
      rw [List.length_map, List.length_range] at h2
      exact h2
    have hiy : i < ys.length := by omega
    rw [List.getElem_zip, List.getElem_map, List.getElem_map, List.getElem_range]
    rw [show (ys.getD i 0) = ys[i] from getD_eq_getElem ys i hiy]

/-- C3: for a non-empty list of distinct in-range x-values and matching
y-values, `interpolate_with_precomputation` applied to
`precompute_lagrange_polynomials(x_values)` succeeds and the resulting
coefficient vector Horner-evaluates to `y_values[k]` at `x_values[k]` for
every `k`, provided the (spec-modelled) NTL inverse actually inverts each
accumulated denominator. -/
theorem claim_C3 (lam : Nat) (hlam : lam ∈ lambdas) (xs ys : List Nat)
    (hne : xs ≠ []) (hlen : xs.length = ys.length)
    (hxb : ∀ x ∈ xs, x < 2 ^ widthOf lam) (hyb : ∀ y ∈ ys, y < 2 ^ widthOf lam)
    (_hdist : ∀ i, i < xs.length → ∀ j, j < xs.length → i ≠ j →
      xs.getD i 0 ≠ xs.getD j 0)
    (hinv : ∀ k, k < xs.length →
      GF2E_mul lam (lagrange_denom lam xs k)
        (ntl_inv lam (lagrange_denom lam xs k)) = 1) :
    ∃ res, interpolate_with_precomputation lam
        (precompute_lagrange_polynomials lam xs) ys = .ok res ∧
      ∀ k, k < xs.length → eval lam res (xs.getD k 0) = ys.getD k 0 := by
  have hm1 : 1 ≤ xs.length := by
    cases xs
    · exact absurd rfl hne
    · simp
  have hysne : ys ≠ [] := by
    intro hy
    rw [hy] at hlen
    exact hne (List.eq_nil_of_length_eq_zero hlen)
  have hBb : ∀ k, ∀ c ∈ vec_scalar_mul lam (build_from_roots lam (x_except xs k))
      (ntl_inv lam (lagrange_denom lam xs k)), c < 2 ^ widthOf lam := by
    intro k c hc
    rw [vec_scalar_mul] at hc
    obtain ⟨e, he, hec⟩ := List.mem_map.mp hc
    rw [← hec]
    exact GF2E_mul_lt lam hlam e _
      (build_from_roots_bounded lam hlam (x_except xs k)
        (x_except_bounded xs k _ hxb) e he)
      (ntl_inv_lt lam hlam _ (lagrange_denom_lt lam hlam xs hxb k))
  have hBlen : ∀ k, k < xs.length →
      (vec_scalar_mul lam (build_from_roots lam (x_except xs k))
        (ntl_inv lam (lagrange_denom lam xs k))).length = xs.length := by
    intro k hk
    rw [vec_scalar_mul, List.length_map, build_from_roots_length,
      x_except_length xs k hk]
    omega
  have hpre : precompute_lagrange_polynomials lam xs
      = (List.range xs.length).map (fun k =>
        vec_scalar_mul lam (build_from_roots lam (x_except xs k))
          (ntl_inv lam (lagrange_denom lam xs k))) := rfl
  have hprelen : (precompute_lagrange_polynomials lam xs).length = xs.length := by
    rw [hpre, List.length_map, List.length_range]
  have hmempre : ∀ p ∈ precompute_lagrange_polynomials lam xs,
      p.length = xs.length := by
    intro p hp
    rw [hpre] at hp
    obtain ⟨k, hk, hkp⟩ := List.mem_map.mp hp
    rw [← hkp]
    exact hBlen k (List.mem_range.mp hk)
  have hheadmem : (precompute_lagrange_polynomials lam xs).headD [] ∈
      precompute_lagrange_polynomials lam xs := by
    cases hcs : precompute_lagrange_polynomials lam xs with
    | nil =>
      rw [hcs] at hprelen
      simp at hprelen
      omega
    | cons p ps => simp
  have hheadlen : ((precompute_lagrange_polynomials lam xs).headD []).length
      = xs.length := hmempre _ hheadmem
  have hinit : ∀ c ∈ List.replicate
      ((precompute_lagrange_polynomials lam xs).headD []).length (0:Nat),
      c < 2 ^ widthOf lam := by
    intro c hc
    rw [List.eq_of_mem_replicate hc]
    exact Nat.two_pow_pos _
  have hzipmem : ∀ py ∈ List.zip (precompute_lagrange_polynomials lam xs) ys,
      py.1.length = (List.replicate
        ((precompute_lagrange_polynomials lam xs).headD []).length (0:Nat)).length
      ∧ (∀ c ∈ py.1, c < 2 ^ widthOf lam) ∧ py.2 < 2 ^ widthOf lam := by
    intro py hpy
    obtain ⟨hp1, hp2⟩ := List.of_mem_zip hpy
    refine ⟨?_, ?_, hyb py.2 hp2⟩
    · rw [List.length_replicate, hheadlen, hmempre py.1 hp1]
    · rw [hpre] at hp1
      obtain ⟨k, -, hkp⟩ := List.mem_map.mp hp1
      rw [← hkp]
      exact hBb k
  obtain ⟨res, hres, -⟩ := foldlM_vec_add_ok lam
    (List.zip (precompute_lagrange_polynomials lam xs) ys) _
    (fun py hpy => (hzipmem py hpy).1)
  refine ⟨res, ?_, ?_⟩
  · rw [interpolate_with_precomputation, if_neg (by simp [hprelen, hlen, hysne])]
    exact hres
  · intro k hk
    have hxk : xs.getD k 0 < 2 ^ widthOf lam := getD_bound _ xs hxb k
    have hevalB : ∀ j, eval lam (vec_scalar_mul lam
        (build_from_roots lam (x_except xs j))
        (ntl_inv lam (lagrange_denom lam xs j))) (xs.getD k 0)
        = GF2E_mul lam (ntl_inv lam (lagrange_denom lam xs j))
            (eval lam (build_from_roots lam (x_except xs j)) (xs.getD k 0)) :=
      fun j => eval_scalar lam hlam _ _ _
        (build_from_roots_bounded lam hlam _ (x_except_bounded xs j _ hxb))
        (ntl_inv_lt lam hlam _ (lagrange_denom_lt lam hlam xs hxb j)) hxk
    have hbuildeval : ∀ j, eval lam (build_from_roots lam (x_except xs j))
        (xs.getD k 0)
        = (x_except xs j).foldl
            (fun acc r => GF2E_mul lam acc (xs.getD k 0 ^^^ r)) 1 :=
      fun j => build_eval lam hlam _ (x_except_bounded xs j _ hxb) _ hxk
    have hvanish : ∀ j ∈ List.range xs.length, j ≠ k →
        GF2E_mul lam (ys.getD j 0)
          (eval lam (vec_scalar_mul lam (build_from_roots lam (x_except xs j))
            (ntl_inv lam (lagrange_denom lam xs j))) (xs.getD k 0)) = 0 := by
      intro j hj hjk
      have hroot : xs.getD k 0 ∈ x_except xs j := x_except_mem xs j k hk (Ne.symm hjk)
      rw [hevalB j, hbuildeval j,
        mulFold_root lam hlam (xs.getD k 0) (x_except xs j) 1 hroot]
      rw [GF2E_mul_zero lam hlam, GF2E_mul_zero lam hlam]
    have hdenom : (x_except xs k).foldl
        (fun acc r => GF2E_mul lam acc (xs.getD k 0 ^^^ r)) 1
        = lagrange_denom lam xs k := by
      rw [x_except]
      rw [skipPush_foldl (fun j => xs.getD j 0)
        (fun a r => GF2E_mul lam a (xs.getD k 0 ^^^ r)) k (List.range xs.length) [] 1]
      rfl
    have hev := foldlM_eval lam hlam (xs.getD k 0) hxk
      (List.zip (precompute_lagrange_polynomials lam xs) ys) _ res hinit hzipmem hres
    rw [eval_replicate_zero lam hlam] at hev
    rw [hpre, zip_map_range _ ys xs.length hlen.symm, List.foldl_map] at hev
    have h7 : eval lam res (xs.getD k 0)
        = (List.range xs.length).foldl
            (fun e j => e ^^^ GF2E_mul lam (ys.getD j 0)
              (eval lam (vec_scalar_mul lam (build_from_roots lam (x_except xs j))
                (ntl_inv lam (lagrange_denom lam xs j))) (xs.getD k 0))) 0 := hev
    rw [h7]
    rw [foldl_xor_single
      (fun j => GF2E_mul lam (ys.getD j 0)
        (eval lam (vec_scalar_mul lam (build_from_roots lam (x_except xs j))
          (ntl_inv lam (lagrange_denom lam xs j))) (xs.getD k 0)))
      k (List.range xs.length) 0 (List.nodup_range xs.length) hvanish
      (List.mem_range.mpr hk)]
    rw [Nat.zero_xor, hevalB k, hbuildeval k, hdenom]
    rw [GF2E_mul_comm lam (ntl_inv lam (lagrange_denom lam xs k))
      (lagrange_denom lam xs k)]
    rw [hinv k hk]
    exact GF2E_mul_one lam hlam _ (getD_bound _ ys hyb k)

set_option maxRecDepth 100000 in
theorem claim_C3_witness :
    (4 ∈ lambdas ∧ ([0, 1] : List Nat) ≠ []
      ∧ ([0, 1] : List Nat).length = ([5, 7] : List Nat).length
      ∧ (∀ x ∈ ([0, 1] : List Nat), x < 2 ^ widthOf 4)
      ∧ (∀ y ∈ ([5, 7] : List Nat), y < 2 ^ widthOf 4)
      ∧ (∀ i, i < ([0, 1] : List Nat).length → ∀ j, j < ([0, 1] : List Nat).length →
          i ≠ j → ([0, 1] : List Nat).getD i 0 ≠ ([0, 1] : List Nat).getD j 0)
      ∧ (∀ k, k < ([0, 1] : List Nat).length →
          GF2E_mul 4 (lagrange_denom 4 [0, 1] k)
            (ntl_inv 4 (lagrange_denom 4 [0, 1] k)) = 1)) ∧
    (∃ res, interpolate_with_precomputation 4
        (precompute_lagrange_polynomials 4 [0, 1]) [5, 7] = .ok res ∧
      ∀ k, k < ([0, 1] : List Nat).length →
        eval 4 res (([0, 1] : List Nat).getD k 0) = ([5, 7] : List Nat).getD k 0) :=
  ⟨⟨by decide, by decide, by decide, by decide, by decide, by decide, by decide⟩,
    claim_C3 4 (by decide) [0, 1] [5, 7] (by decide) (by decide) (by decide)
      (by decide) (by decide) (by decide)⟩

end Banquet

